import Mathlib

set_option maxHeartbeats 1000000

/-- CellState from the source: Hidden, Revealed or Flagged. -/
inductive CellState where
  | Hidden
  | Revealed
  | Flagged
deriving DecidableEq

/-- Cell from the source: a mine flag and a state. -/
structure Cell where
  mine : Bool
  state : CellState
deriving DecidableEq

/-- The default cell used by the getD based cell accessors; reveal and the
    session step are only ever applied at in-bounds positions, where the
    default is never read. -/
def dflt : Cell := { mine := false, state := CellState.Hidden }

/-- The pure part of the Game struct from the source: cells, width, height,
    cursor, start time and difficulty. The terminal input and output handles
    are not part of the embedding, and the Instant start_time is abstracted
    as a number that the code never rewrites. -/
structure Game where
  cells : List Cell
  width : Nat
  height : Nat
  cursor : Nat × Nat
  startTime : Nat
  difficulty : Nat
deriving DecidableEq

/-- position_index from the source: x + y * width. -/
def positionIndex (g : Game) (x y : Nat) : Nat := x + y * g.width

/-- Reading self.cells[position_index(x, y)]. -/
def getCell (g : Game) (x y : Nat) : Cell := g.cells.getD (positionIndex g x y) dflt

/-- The state of the cell at position p. -/
def stateAt (g : Game) (p : Nat × Nat) : CellState := (getCell g p.1 p.2).state

/-- The mine flag of the cell at position p. -/
def mineAt (g : Game) (p : Nat × Nat) : Bool := (getCell g p.1 p.2).mine

/-- Writing the state of the cell at (x, y), as the assignment
    self.cells[i].state = st does in the source. -/
def setCellState (g : Game) (x y : Nat) (st : CellState) : Game :=
  { g with cells := g.cells.set (positionIndex g x y) { getCell g x y with state := st } }

/-- One iteration of the outer loop of Game::neighbors for a fixed column nx:
    the inner loop runs ny over cy - 1, cy, cy + 1 and pushes (nx, ny) when
    the bounds check passes and (nx, ny) is not the center. -/
def nbrRow (w h x y : Nat) (nx : Int) : List (Nat × Nat) :=
  [(y : Int) - 1, (y : Int), (y : Int) + 1].filterMap (fun ny =>
    if 0 ≤ nx ∧ 0 ≤ ny ∧ nx.toNat < w ∧ ny.toNat < h ∧ (nx ≠ (x : Int) ∨ ny ≠ (y : Int))
    then some (nx.toNat, ny.toNat) else none)

/-- Game::neighbors from the source: the outer loop runs nx over
    cx - 1, cx, cx + 1; the three unrolled iterations are appended in
    order. -/
def neighbors (w h x y : Nat) : List (Nat × Nat) :=
  nbrRow w h x y ((x : Int) - 1) ++ nbrRow w h x y (x : Int) ++ nbrRow w h x y ((x : Int) + 1)

/-- The surrounding_mines computation inside Game::reveal: over the neighbor
    list, keep a 1 for every mine neighbor and sum into a u8. The modulus
    renders the u8 arithmetic; the sum is at most 8, so it never wraps. -/
def surroundingMines (g : Game) (x y : Nat) : Nat :=
  (((neighbors g.width g.height x y).filterMap
      (fun p => if mineAt g p then some 1 else none)).sum) % 256

/-- Game::did_win from the source: every mine cell has state Flagged. -/
def did_win (g : Game) : Bool :=
  (g.cells.filter (fun c => c.mine)).all (fun c => decide (c.state = CellState.Flagged))

/-- The number of Hidden cells of the board: the measure that bounds the
    recursion depth of Game::reveal. -/
def hiddenCount (g : Game) : Nat :=
  g.cells.countP (fun c => decide (c.state = CellState.Hidden))

/-- Game::reveal from the source, with explicit recursion fuel. The match
    with guards on the cell state is rendered as nested conditionals.
    Hitting a Hidden mine calls game_over in the source, which mutates no
    cell; it is modeled by the Boolean loss signal in the result. -/
def revealF : Nat → Game → Nat → Nat → Game × Bool
  | 0, g, _, _ => (g, false)
  | fuel + 1, g, x, y =>
    let c := getCell g x y
    if c.state = CellState.Hidden then
      if c.mine then (g, true)
      else
        let g1 := setCellState g x y CellState.Revealed
        if 0 < surroundingMines g1 x y then (g1, false)
        else
          (neighbors g.width g.height x y).foldl
            (fun ab q =>
              let r := revealF fuel ab.1 q.1 q.2
              (r.1, ab.2 || r.2))
            (g1, false)
    else (g, false)

/-- Game::reveal: the fuel hiddenCount g + 1 always suffices, because the
    recursion only descends after turning a Hidden cell into a Revealed
    one. -/
def reveal (g : Game) (x y : Nat) : Game × Bool :=
  revealF (hiddenCount g + 1) g x y

/-- The flag toggle from the f / F key handler in Game::run. -/
def flagToggle (g : Game) (x y : Nat) : Game :=
  match (getCell g x y).state with
  | CellState.Hidden => setCellState g x y CellState.Flagged
  | CellState.Flagged => setCellState g x y CellState.Hidden
  | CellState.Revealed => g

/-- Game::gen_board from the source. The i-th result of
    rng.gen_range(difficulty, 30) is supplied by the oracle draws; a cell is
    a mine exactly when its draw is below 3, and every cell starts Hidden. -/
def gen_board (draws : Nat → Nat) (difficulty width height : Nat) : List Cell :=
  (List.range (width * height)).map
    (fun i => { mine := decide (draws i < 3), state := CellState.Hidden })

/-- The key events consumed by the game loop: the termion Key variants that
    the source matches on, with Other standing for every unhandled
    variant. -/
inductive Key where
  | Left
  | Right
  | Up
  | Down
  | Char (c : Char)
  | Other
deriving DecidableEq

/-- The control location of the session: the run loop (Playing), the
    win_game modal (Won), the game_over modal (Lost), or exited (Quit). -/
inductive Mode where
  | Playing
  | Won
  | Lost
  | Quit
deriving DecidableEq

/-- After every handled key the run loop re-positions the terminal cursor
    and checks did_win, entering the win_game modal when it holds. -/
def afterAction (g : Game) : Game × Mode :=
  (g, if did_win g then Mode.Won else Mode.Playing)

/-- Board regeneration as performed by the r key handlers: only the cells
    are replaced (gen_board with the same difficulty, width and height);
    cursor and start time are untouched. -/
def regen (draws : Nat → Nat) (g : Game) : Game :=
  { g with cells := gen_board draws g.difficulty g.width g.height }

/-- One key event of the session state machine: the body of the run loop in
    the Playing mode, of the win_game loop in the Won mode and of the
    game_over loop in the Lost mode. In the Lost mode the r key regenerates
    the board and control returns through Game::reveal into the run loop,
    which then re-checks did_win on the fresh board; after the r key of the
    Won modal the next did_win check only happens after the following
    key. -/
def step (draws : Nat → Nat) (g : Game) (m : Mode) (k : Key) : Game × Mode :=
  match m with
  | Mode.Playing =>
    match k with
    | Key.Left =>
      afterAction { g with cursor := ((max ((g.cursor.1 : Int) - 1) 0).toNat, g.cursor.2) }
    | Key.Right =>
      afterAction { g with cursor := (min (g.cursor.1 + 1) (g.width - 1), g.cursor.2) }
    | Key.Up =>
      afterAction { g with cursor := (g.cursor.1, (max ((g.cursor.2 : Int) - 1) 0).toNat) }
    | Key.Down =>
      afterAction { g with cursor := (g.cursor.1, min (g.cursor.2 + 1) (g.height - 1)) }
    | Key.Char c =>
      if c = ' ' then
        if (getCell g g.cursor.1 g.cursor.2).state = CellState.Hidden then
          if (reveal g g.cursor.1 g.cursor.2).2
          then ((reveal g g.cursor.1 g.cursor.2).1, Mode.Lost)
          else afterAction (reveal g g.cursor.1 g.cursor.2).1
        else afterAction g
      else if c = 'f' then afterAction (flagToggle g g.cursor.1 g.cursor.2)
      else if c = 'F' then afterAction (flagToggle g g.cursor.1 g.cursor.2)
      else if c = 'r' then afterAction (regen draws g)
      else if c = 'q' then (g, Mode.Quit)
      else afterAction g
    | Key.Other => afterAction g
  | Mode.Won =>
    match k with
    | Key.Char c =>
      if c = 'r' then (regen draws g, Mode.Playing)
      else if c = 'q' then (g, Mode.Quit)
      else (g, Mode.Won)
    | _ => (g, Mode.Won)
  | Mode.Lost =>
    match k with
    | Key.Char c =>
      if c = 'q' then (g, Mode.Quit)
      else if c = 'r' then afterAction (regen draws g)
      else (g, Mode.Lost)
    | _ => (g, Mode.Lost)
  | Mode.Quit => (g, Mode.Quit)

/-- Folding a list of key events through the session step. -/
def runKeys (draws : Nat → Nat) (s : Game × Mode) (ks : List Key) : Game × Mode :=
  ks.foldl (fun s k => step draws s.1 s.2 k) s

/-- Well-formed board: the cell vector has exactly width * height entries,
    as gen_board produces. -/
def wf (g : Game) : Prop := g.cells.length = g.width * g.height

/-- The position p lies on the board. -/
def inBoundsP (g : Game) (p : Nat × Nat) : Prop := p.1 < g.width ∧ p.2 < g.height

/-- A zero cell: in bounds, not a mine, and with no neighboring mines. -/
def isZero (g : Game) (p : Nat × Nat) : Prop :=
  inBoundsP g p ∧ mineAt g p = false ∧ surroundingMines g p.1 p.2 = 0

/-- The 8-connected region of zero cells reachable from s through zero
    cells. -/
inductive ZReach (g : Game) (s : Nat × Nat) : Nat × Nat → Prop where
  | base : isZero g s → ZReach g s s
  | step (p q : Nat × Nat) : ZReach g s p → q ∈ neighbors g.width g.height p.1 p.2 →
      isZero g q → ZReach g s q

/-- The set that the reveal cascade discloses: the zero region of s together
    with every neighbor of a region cell (the bordering numbered cells). -/
def InRevealSet (g : Game) (s q : Nat × Nat) : Prop :=
  ZReach g s q ∨ ∃ p, ZReach g s p ∧ q ∈ neighbors g.width g.height p.1 p.2

/-- The frame relation of the reveal recursion: dimensions, cursor, clock,
    difficulty, cell count and every mine flag are preserved, and each cell
    state is unchanged or has moved from Hidden to Revealed. -/
def StepOk (g g' : Game) : Prop :=
  g'.width = g.width ∧ g'.height = g.height ∧ g'.cursor = g.cursor ∧
  g'.startTime = g.startTime ∧ g'.difficulty = g.difficulty ∧
  g'.cells.length = g.cells.length ∧
  ∀ i, ((g'.cells.getD i dflt).mine = (g.cells.getD i dflt).mine ∧
    ((g'.cells.getD i dflt).state = (g.cells.getD i dflt).state ∨
      ((g.cells.getD i dflt).state = CellState.Hidden ∧
        (g'.cells.getD i dflt).state = CellState.Revealed)))

instance (g : Game) : Decidable (wf g) :=
  inferInstanceAs (Decidable (g.cells.length = g.width * g.height))

instance (g : Game) (p : Nat × Nat) : Decidable (inBoundsP g p) :=
  inferInstanceAs (Decidable (p.1 < g.width ∧ p.2 < g.height))

instance (g : Game) (p : Nat × Nat) : Decidable (isZero g p) :=
  inferInstanceAs (Decidable (inBoundsP g p ∧ mineAt g p = false ∧
    surroundingMines g p.1 p.2 = 0))

def gC3 : Game :=
  { cells := [{ mine := true, state := CellState.Flagged },
      { mine := false, state := CellState.Hidden }],
    width := 2, height := 1, cursor := (0, 0), startTime := 0, difficulty := 1 }

def gC4 : Game :=
  { cells := [dflt, dflt], width := 2, height := 1, cursor := (0, 0),
    startTime := 0, difficulty := 1 }

def gC5 : Game :=
  { cells := [{ mine := true, state := CellState.Hidden }], width := 1, height := 1,
    cursor := (0, 0), startTime := 0, difficulty := 1 }

def gC6 : Game :=
  { cells := [dflt, { mine := true, state := CellState.Flagged }], width := 2,
    height := 1, cursor := (0, 0), startTime := 0, difficulty := 1 }

def gC9 : Game :=
  { cells := [{ mine := true, state := CellState.Hidden }, dflt, dflt,
      dflt, dflt, dflt,
      dflt, dflt, { mine := true, state := CellState.Hidden }],
    width := 3, height := 3, cursor := (0, 0), startTime := 0, difficulty := 1 }

def gC7 : Game :=
  { cells := [dflt], width := 1, height := 1, cursor := (0, 0), startTime := 3,
    difficulty := 0 }

def gC8 : Game :=
  { cells := [dflt, dflt, dflt, dflt], width := 2, height := 2, cursor := (1, 1),
    startTime := 0, difficulty := 2 }

def gC2 : Game :=
  { cells := [dflt, dflt], width := 2, height := 1, cursor := (1, 0), startTime := 7,
    difficulty := 1 }

def gC10 : Game :=
  { cells := [dflt, dflt, dflt], width := 3, height := 1, cursor := (1, 0),
    startTime := 0, difficulty := 1 }

def gC1 : Game :=
  { cells := [dflt, { mine := false, state := CellState.Flagged }, dflt],
    width := 1, height := 3, cursor := (0, 0), startTime := 0, difficulty := 1 }

def gC1w : Game :=
  { cells := [dflt, dflt], width := 2, height := 1, cursor := (0, 0), startTime := 0,
    difficulty := 1 }

/-- getD after set: the written value at the written index when it is in
    range, the old value everywhere else. -/
theorem getD_set {α : Type} (l : List α) (i j : Nat) (a d : α) :
    (l.set i a).getD j d = if j = i ∧ i < l.length then a else l.getD j d := by
  induction l generalizing i j with
  | nil => simp
  | cons b t ih =>
    cases i with
    | zero =>
      cases j with
      | zero => simp
      | succ m => simp
    | succ n =>
      cases j with
      | zero => simp
      | succ m =>
        have := ih n m
        simp only [List.set_cons_succ, List.getD_cons_succ, List.length_cons]
        rw [this]
        by_cases h1 : m = n ∧ n < t.length
        · rw [if_pos h1, if_pos (by omega)]
        · rw [if_neg h1, if_neg (by omega)]

/-- Replacing an element that satisfies p by one that does not strictly
    lowers the countP. -/
theorem countP_set_lt {α : Type} (l : List α) (i : Nat) (a d : α) (p : α → Bool)
    (h : i < l.length) (h1 : p (l.getD i d) = true) (h2 : p a = false) :
    (l.set i a).countP p < l.countP p := by
  induction l generalizing i with
  | nil => simp at h
  | cons b t ih =>
    cases i with
    | zero =>
      simp only [List.getD_cons_zero] at h1
      simp [List.countP_cons, h1, h2]
    | succ n =>
      have hlt : n < t.length := by simpa using h
      have := ih n hlt (by simpa using h1)
      simp only [List.set_cons_succ, List.countP_cons]
      omega

/-- A pointwise implication between two equally long lists bounds countP. -/
theorem countP_le_pointwise {α : Type} (d : α) (p : α → Bool) :
    ∀ (l l' : List α), l'.length = l.length →
      (∀ i, p (l'.getD i d) = true → p (l.getD i d) = true) →
      l'.countP p ≤ l.countP p := by
  intro l
  induction l with
  | nil =>
    intro l' hlen _
    simp at hlen
    simp [hlen]
  | cons b t ih =>
    intro l' hlen hpt
    cases l' with
    | nil => simp
    | cons b' t' =>
      have htail : t'.countP p ≤ t.countP p := by
        refine ih t' (by simpa using hlen) ?_
        intro i hi
        have := hpt (i + 1)
        simpa using this (by simpa using hi)
      have hb : p b' = true → p b = true := by
        have := hpt 0
        simpa using this
      simp only [List.countP_cons]
      cases hb' : p b' with
      | false =>
        cases hbv : p b <;> simp [hb', hbv] <;> omega
      | true =>
        have := hb hb'
        simp [hb', this]
        omega

/-- An in-range getD is a member of the list. -/
theorem getD_mem {α : Type} (l : List α) (i : Nat) (d : α) (h : i < l.length) :
    l.getD i d ∈ l := by
  induction l generalizing i with
  | nil => simp at h
  | cons b t ih =>
    cases i with
    | zero => simp
    | succ n =>
      have := ih n (by simpa using h)
      simp only [List.getD_cons_succ]
      exact List.mem_cons_of_mem _ this

/-- Quantifying over members is quantifying over in-range getD values. -/
theorem forall_mem_iff_getD {α : Type} (d : α) (P : α → Prop) (l : List α) :
    (∀ c ∈ l, P c) ↔ (∀ i, i < l.length → P (l.getD i d)) := by
  constructor
  · intro h i hi
    exact h _ (getD_mem l i d hi)
  · intro h c hc
    induction l with
    | nil => simp at hc
    | cons b t ih =>
      rcases List.mem_cons.mp hc with rfl | hmem
      · exact h 0 (by simp)
      · exact ih (fun i hi => by simpa using h (i + 1) (by simpa using hi)) hmem

/-- Summing a 1 for every element satisfying q counts the elements
    satisfying q. -/
theorem sum_filterMap_ones {α : Type} (q : α → Bool) (l : List α) :
    (l.filterMap (fun a => if q a then some 1 else none)).sum = (l.filter q).length := by
  induction l with
  | nil => rfl
  | cons b t ih =>
    cases hb : q b with
    | false => simpa [List.filterMap_cons, List.filter_cons, hb] using ih
    | true =>
      have h2 : ((b :: t).filterMap (fun a => if q a then some 1 else none)).sum
          = 1 + (t.filterMap (fun a => if q a then some 1 else none)).sum := by
        simp [List.filterMap_cons, hb]
      have h3 : ((b :: t).filter q).length = (t.filter q).length + 1 := by
        simp [List.filter_cons, hb]
      rw [h2, h3, ih]
      omega

/-- filterMap only depends on the values of the function on the list. -/
theorem filterMap_congr_mem {α β : Type} (f f' : α → Option β) :
    ∀ (l : List α), (∀ a ∈ l, f a = f' a) → l.filterMap f = l.filterMap f' := by
  intro l
  induction l with
  | nil => intro _; rfl
  | cons b t ih =>
    intro h
    have hb := h b (by simp)
    have ht := ih (fun a ha => h a (by simp [ha]))
    simp [List.filterMap_cons, hb, ht]


theorem StepOk_refl (g : Game) : StepOk g g :=
  ⟨rfl, rfl, rfl, rfl, rfl, rfl, fun _ => ⟨rfl, Or.inl rfl⟩⟩

theorem StepOk_trans {g1 g2 g3 : Game} (h12 : StepOk g1 g2) (h23 : StepOk g2 g3) :
    StepOk g1 g3 := by
  obtain ⟨w12, hh12, c12, t12, d12, l12, p12⟩ := h12
  obtain ⟨w23, hh23, c23, t23, d23, l23, p23⟩ := h23
  refine ⟨w23.trans w12, hh23.trans hh12, c23.trans c12, t23.trans t12, d23.trans d12,
    l23.trans l12, ?_⟩
  intro i
  obtain ⟨m12, s12⟩ := p12 i
  obtain ⟨m23, s23⟩ := p23 i
  refine ⟨m23.trans m12, ?_⟩
  rcases s12 with s12 | ⟨s12a, s12b⟩ <;> rcases s23 with s23 | ⟨s23a, s23b⟩
  · exact Or.inl (s23.trans s12)
  · exact Or.inr ⟨s12 ▸ s23a, s23b⟩
  · exact Or.inr ⟨s12a, s23.trans s12b⟩
  · rw [s12b] at s23a
    exact absurd s23a (by simp)

theorem positionIndex_lt (g : Game) (x y : Nat) (hwf : wf g) (hx : x < g.width)
    (hy : y < g.height) : positionIndex g x y < g.cells.length := by
  unfold wf at hwf
  unfold positionIndex
  rw [hwf]
  calc x + y * g.width < g.width + y * g.width := by omega
    _ = (y + 1) * g.width := by rw [Nat.succ_mul]; omega
    _ ≤ g.height * g.width := Nat.mul_le_mul_right _ hy
    _ = g.width * g.height := Nat.mul_comm _ _

theorem positionIndex_inj (g : Game) (x y a b : Nat) (hx : x < g.width) (ha : a < g.width)
    (h : positionIndex g x y = positionIndex g a b) : x = a ∧ y = b := by
  have hw : 0 < g.width := by omega
  unfold positionIndex at h
  have hx1 : (x + y * g.width) % g.width = x := by
    rw [Nat.add_mul_mod_self_right, Nat.mod_eq_of_lt hx]
  have ha1 : (a + b * g.width) % g.width = a := by
    rw [Nat.add_mul_mod_self_right, Nat.mod_eq_of_lt ha]
  have hxa : x = a := by rw [← hx1, ← ha1, h]
  refine ⟨hxa, ?_⟩
  subst hxa
  have h2 : y * g.width = b * g.width := Nat.add_left_cancel h
  exact Nat.eq_of_mul_eq_mul_right hw h2

/-- The getD view of the cell vector after setCellState. -/
theorem cells_set_getD (g : Game) (x y : Nat) (st : CellState) (i : Nat) :
    (setCellState g x y st).cells.getD i dflt =
      if i = positionIndex g x y ∧ positionIndex g x y < g.cells.length
      then { getCell g x y with state := st } else g.cells.getD i dflt := by
  unfold setCellState
  exact getD_set ..

theorem StepOk_set_revealed (g : Game) (x y : Nat)
    (hH : (getCell g x y).state = CellState.Hidden) :
    StepOk g (setCellState g x y CellState.Revealed) := by
  refine ⟨rfl, rfl, rfl, rfl, rfl, List.length_set .., ?_⟩
  intro i
  rw [cells_set_getD]
  by_cases h : i = positionIndex g x y ∧ positionIndex g x y < g.cells.length
  · rw [if_pos h]
    obtain ⟨h1, _⟩ := h
    subst h1
    exact ⟨rfl, Or.inr ⟨hH, rfl⟩⟩
  · rw [if_neg h]
    exact ⟨rfl, Or.inl rfl⟩

theorem StepOk_stateAt {g g' : Game} (h : StepOk g g') (p : Nat × Nat) :
    stateAt g' p = stateAt g p ∨
      (stateAt g p = CellState.Hidden ∧ stateAt g' p = CellState.Revealed) := by
  have hw := h.1
  have hp := (h.2.2.2.2.2.2 (positionIndex g p.1 p.2)).2
  unfold stateAt getCell
  unfold positionIndex at hp ⊢
  rw [hw]
  exact hp

theorem StepOk_mineAt {g g' : Game} (h : StepOk g g') (p : Nat × Nat) :
    mineAt g' p = mineAt g p := by
  have hw := h.1
  have hp := (h.2.2.2.2.2.2 (positionIndex g p.1 p.2)).1
  unfold mineAt getCell
  unfold positionIndex at hp ⊢
  rw [hw]
  exact hp

theorem StepOk_revealed {g g' : Game} (h : StepOk g g') (p : Nat × Nat)
    (hr : stateAt g p = CellState.Revealed) : stateAt g' p = CellState.Revealed := by
  rcases StepOk_stateAt h p with h1 | ⟨h1, h2⟩
  · rw [h1, hr]
  · rw [hr] at h1
    exact absurd h1 (by simp)

theorem StepOk_hidden_or_revealed {g g' : Game} (h : StepOk g g') (p : Nat × Nat)
    (hr : stateAt g p = CellState.Hidden) :
    stateAt g' p = CellState.Hidden ∨ stateAt g' p = CellState.Revealed := by
  rcases StepOk_stateAt h p with h1 | ⟨_, h2⟩
  · rw [h1, hr]; exact Or.inl rfl
  · exact Or.inr h2

theorem StepOk_hiddenCount {g g' : Game} (h : StepOk g g') :
    hiddenCount g' ≤ hiddenCount g := by
  unfold hiddenCount
  apply countP_le_pointwise dflt _ g.cells g'.cells h.2.2.2.2.2.1
  intro i hi
  rcases (h.2.2.2.2.2.2 i).2 with h1 | ⟨h1, h2⟩
  · rw [h1] at hi
    exact hi
  · rw [h2] at hi
    simp at hi

theorem surroundingMines_congr {g g' : Game} (h : StepOk g g') (x y : Nat) :
    surroundingMines g' x y = surroundingMines g x y := by
  unfold surroundingMines
  rw [h.1, h.2.1]
  have heq : (neighbors g.width g.height x y).filterMap
        (fun p => if mineAt g' p then some 1 else none)
      = (neighbors g.width g.height x y).filterMap
        (fun p => if mineAt g p then some 1 else none) :=
    filterMap_congr_mem _ _ _ (fun p _ => by rw [StepOk_mineAt h p])
  rw [heq]

theorem hiddenCount_pos (g : Game) (x y : Nat) (hwf : wf g) (hx : x < g.width)
    (hy : y < g.height) (hH : (getCell g x y).state = CellState.Hidden) :
    0 < hiddenCount g := by
  unfold hiddenCount
  rw [List.countP_pos_iff]
  exact ⟨getCell g x y, getD_mem _ _ _ (positionIndex_lt g x y hwf hx hy), by simp [hH]⟩

theorem hiddenCount_set_lt (g : Game) (x y : Nat) (hwf : wf g) (hx : x < g.width)
    (hy : y < g.height) (hH : (getCell g x y).state = CellState.Hidden) :
    hiddenCount (setCellState g x y CellState.Revealed) < hiddenCount g := by
  unfold hiddenCount setCellState
  apply countP_set_lt _ _ _ dflt _ (positionIndex_lt g x y hwf hx hy)
  · simpa [getCell] using congrArg (fun s => decide (s = CellState.Hidden)) hH
  · simp

/-- The one-step unfolding of revealF at positive fuel. -/
theorem revealF_succ (fuel : Nat) (g : Game) (x y : Nat) :
    revealF (fuel + 1) g x y =
      if (getCell g x y).state = CellState.Hidden then
        if (getCell g x y).mine then (g, true)
        else
          if 0 < surroundingMines (setCellState g x y CellState.Revealed) x y
          then (setCellState g x y CellState.Revealed, false)
          else
            (neighbors g.width g.height x y).foldl
              (fun ab q => ((revealF fuel ab.1 q.1 q.2).1, ab.2 || (revealF fuel ab.1 q.1 q.2).2))
              (setCellState g x y CellState.Revealed, false)
      else (g, false) := rfl

/-- The reveal cascade fold only moves the board along the frame
    relation. -/
theorem foldl_reveal_StepOk (fuel : Nat) :
    ∀ (ns : List (Nat × Nat)) (ab : Game × Bool),
      (∀ (g : Game) (x y : Nat), StepOk g (revealF fuel g x y).1) →
      StepOk ab.1 ((ns.foldl
        (fun ab q => ((revealF fuel ab.1 q.1 q.2).1, ab.2 || (revealF fuel ab.1 q.1 q.2).2))
        ab).1) := by
  intro ns
  induction ns with
  | nil => intro ab _; exact StepOk_refl _
  | cons q t iht =>
    intro ab ih
    simp only [List.foldl_cons]
    exact StepOk_trans (ih ab.1 q.1 q.2) (iht _ ih)

/-- Game::reveal respects the frame relation: it only turns Hidden cells
    into Revealed ones and touches nothing else. -/
theorem revealF_StepOk : ∀ (fuel : Nat) (g : Game) (x y : Nat),
    StepOk g (revealF fuel g x y).1 := by
  intro fuel
  induction fuel with
  | zero => intro g x y; exact StepOk_refl g
  | succ n ih =>
    intro g x y
    rw [revealF_succ]
    by_cases h1 : (getCell g x y).state = CellState.Hidden
    · rw [if_pos h1]
      by_cases h2 : (getCell g x y).mine
      · rw [if_pos h2]
        exact StepOk_refl g
      · rw [if_neg h2]
        have hset := StepOk_set_revealed g x y h1
        by_cases h3 : 0 < surroundingMines (setCellState g x y CellState.Revealed) x y
        · rw [if_pos h3]
          exact hset
        · rw [if_neg h3]
          exact StepOk_trans hset (foldl_reveal_StepOk n _ _ ih)
    · rw [if_neg h1]
      exact StepOk_refl g

/-- Membership in one unrolled column of the neighbor loop. -/
theorem mem_nbrRow {w h x y : Nat} {nx : Int} {a b : Nat} :
    (a, b) ∈ nbrRow w h x y nx ↔
      ((a : Int) = nx ∧ a < w ∧ b < h ∧ ((b : Int) - (y : Int)).natAbs ≤ 1 ∧
        ¬(a = x ∧ b = y)) := by
  unfold nbrRow
  rw [List.mem_filterMap]
  constructor
  · rintro ⟨ny, hmem, hf⟩
    simp only [List.mem_cons, List.not_mem_nil, or_false] at hmem
    simp only [Option.ite_none_right_eq_some, Option.some.injEq, Prod.mk.injEq] at hf
    omega
  · rintro ⟨ha, haw, hbh, hdist, hne⟩
    refine ⟨(b : Int), ?_, ?_⟩
    · simp only [List.mem_cons, List.not_mem_nil, or_false]
      omega
    · simp only [Option.ite_none_right_eq_some, Option.some.injEq, Prod.mk.injEq]
      omega

/-- Membership in the neighbor list: the Moore neighborhood clipped to the
    board, excluding the center. -/
theorem mem_neighbors {w h x y a b : Nat} :
    (a, b) ∈ neighbors w h x y ↔
      (a < w ∧ b < h ∧ ((a : Int) - (x : Int)).natAbs ≤ 1 ∧
        ((b : Int) - (y : Int)).natAbs ≤ 1 ∧ ¬(a = x ∧ b = y)) := by
  unfold neighbors
  simp only [List.mem_append, mem_nbrRow]
  constructor
  · rintro ((h | h) | h) <;> omega
  · intro h
    have hcase : (a : Int) = (x : Int) - 1 ∨ (a : Int) = (x : Int) ∨
        (a : Int) = (x : Int) + 1 := by omega
    rcases hcase with h1 | h1 | h1
    · exact Or.inl (Or.inl (by omega))
    · exact Or.inl (Or.inr (by omega))
    · exact Or.inr (by omega)

theorem neighbors_inBounds {w h x y : Nat} {p : Nat × Nat}
    (hp : p ∈ neighbors w h x y) : p.1 < w ∧ p.2 < h := by
  obtain ⟨a, b⟩ := p
  rw [mem_neighbors] at hp
  exact ⟨hp.1, hp.2.1⟩

theorem nbrRow_nodup (w h x y : Nat) (nx : Int) : (nbrRow w h x y nx).Nodup := by
  unfold nbrRow
  simp only [List.filterMap_cons, List.filterMap_nil]
  split_ifs <;>
    simp_all [List.nodup_cons, List.mem_cons, Prod.mk.injEq] <;>
    omega

theorem nbrRow_disjoint (w h x y : Nat) (nx1 nx2 : Int) (hne : nx1 ≠ nx2) :
    (nbrRow w h x y nx1).Disjoint (nbrRow w h x y nx2) := by
  rw [List.disjoint_left]
  intro p hp1 hp2
  obtain ⟨a, b⟩ := p
  rw [mem_nbrRow] at hp1 hp2
  omega

theorem neighbors_nodup (w h x y : Nat) : (neighbors w h x y).Nodup := by
  unfold neighbors
  rw [List.nodup_append, List.nodup_append]
  refine ⟨⟨nbrRow_nodup .., nbrRow_nodup .., nbrRow_disjoint _ _ _ _ _ _ (by omega)⟩,
    nbrRow_nodup .., ?_⟩
  rw [List.disjoint_left]
  intro p hp1 hp2
  obtain ⟨a, b⟩ := p
  rw [List.mem_append, mem_nbrRow, mem_nbrRow] at hp1
  rw [mem_nbrRow] at hp2
  omega

theorem nbrRow_length_le (w h x y : Nat) (nx : Int) : (nbrRow w h x y nx).length ≤ 3 := by
  unfold nbrRow
  apply le_trans (List.length_filterMap_le _ _)
  simp

theorem nbrRow_center_le (w h x y : Nat) : (nbrRow w h x y (x : Int)).length ≤ 2 := by
  unfold nbrRow
  simp only [List.filterMap_cons, List.filterMap_nil]
  split_ifs <;> simp_all <;> omega

theorem nbrRow_nil_left (w h x y : Nat) (nx : Int) (hneg : nx < 0) :
    nbrRow w h x y nx = [] := by
  unfold nbrRow
  simp only [List.filterMap_cons, List.filterMap_nil]
  split_ifs <;> simp_all <;> omega

theorem nbrRow_nil_right (w h x y : Nat) (nx : Int) (hge : 0 ≤ nx) (hw : w ≤ nx.toNat) :
    nbrRow w h x y nx = [] := by
  unfold nbrRow
  simp only [List.filterMap_cons, List.filterMap_nil]
  split_ifs <;> simp_all <;> omega

theorem nbrRow_length_le2_y0 (w h x y : Nat) (nx : Int) (hy : y = 0) :
    (nbrRow w h x y nx).length ≤ 2 := by
  unfold nbrRow
  simp only [List.filterMap_cons, List.filterMap_nil]
  split_ifs <;> simp_all <;> omega

theorem nbrRow_length_le1_y0_center (w h x y : Nat) (hy : y = 0) :
    (nbrRow w h x y (x : Int)).length ≤ 1 := by
  unfold nbrRow
  simp only [List.filterMap_cons, List.filterMap_nil]
  split_ifs <;> simp_all <;> omega

theorem nbrRow_length_le2_ytop (w h x y : Nat) (nx : Int) (hy : y + 1 = h) :
    (nbrRow w h x y nx).length ≤ 2 := by
  unfold nbrRow
  simp only [List.filterMap_cons, List.filterMap_nil]
  split_ifs <;> simp_all <;> omega

theorem nbrRow_length_le1_ytop_center (w h x y : Nat) (hy : y + 1 = h) :
    (nbrRow w h x y (x : Int)).length ≤ 1 := by
  unfold nbrRow
  simp only [List.filterMap_cons, List.filterMap_nil]
  split_ifs <;> simp_all <;> omega

theorem nbrRow_length_full (w h x y : Nat) (nx : Int) (h0 : 0 ≤ nx) (hw : nx.toNat < w)
    (hne : nx ≠ (x : Int)) (hy1 : 1 ≤ y) (hy2 : y + 1 < h) :
    (nbrRow w h x y nx).length = 3 := by
  unfold nbrRow
  simp only [List.filterMap_cons, List.filterMap_nil]
  split_ifs <;> simp_all <;> omega

theorem nbrRow_length_center_full (w h x y : Nat) (hxw : x < w) (hy1 : 1 ≤ y)
    (hy2 : y + 1 < h) : (nbrRow w h x y (x : Int)).length = 2 := by
  unfold nbrRow
  simp only [List.filterMap_cons, List.filterMap_nil]
  split_ifs <;> simp_all <;> omega

theorem neighbors_length_le (w h x y : Nat) : (neighbors w h x y).length ≤ 8 := by
  unfold neighbors
  simp only [List.length_append]
  have h1 := nbrRow_length_le w h x y ((x : Int) - 1)
  have h2 := nbrRow_center_le w h x y
  have h3 := nbrRow_length_le w h x y ((x : Int) + 1)
  omega

theorem neighbors_length_corner (w h x y : Nat) (hx : x = 0 ∨ x + 1 = w)
    (hy : y = 0 ∨ y + 1 = h) : (neighbors w h x y).length ≤ 3 := by
  unfold neighbors
  simp only [List.length_append]
  have hc1 : (nbrRow w h x y ((x : Int) - 1)).length = 0 ∨
      (nbrRow w h x y ((x : Int) + 1)).length = 0 := by
    rcases hx with rfl | hx
    · exact Or.inl (by rw [nbrRow_nil_left] <;> simp)
    · exact Or.inr (by rw [nbrRow_nil_right _ _ _ _ _ (by omega) (by omega)]; rfl)
  have hs1 : (nbrRow w h x y ((x : Int) - 1)).length ≤ 2 ∧
      (nbrRow w h x y ((x : Int) + 1)).length ≤ 2 ∧
      (nbrRow w h x y (x : Int)).length ≤ 1 := by
    rcases hy with rfl | hy
    · exact ⟨nbrRow_length_le2_y0 _ _ _ _ _ rfl, nbrRow_length_le2_y0 _ _ _ _ _ rfl,
        nbrRow_length_le1_y0_center _ _ _ _ rfl⟩
    · exact ⟨nbrRow_length_le2_ytop _ _ _ _ _ hy, nbrRow_length_le2_ytop _ _ _ _ _ hy,
        nbrRow_length_le1_ytop_center _ _ _ _ hy⟩
  omega

theorem neighbors_length_edge (w h x y : Nat)
    (hb : x = 0 ∨ x + 1 = w ∨ y = 0 ∨ y + 1 = h) :
    (neighbors w h x y).length ≤ 5 := by
  unfold neighbors
  simp only [List.length_append]
  have h1 := nbrRow_length_le w h x y ((x : Int) - 1)
  have h2 := nbrRow_center_le w h x y
  have h3 := nbrRow_length_le w h x y ((x : Int) + 1)
  rcases hb with rfl | hx | rfl | hy
  · have hnil : (nbrRow w h 0 y (((0 : Nat) : Int) - 1)).length = 0 := by
      rw [nbrRow_nil_left] <;> simp
    omega
  · have hnil : (nbrRow w h x y ((x : Int) + 1)).length = 0 := by
      rw [nbrRow_nil_right _ _ _ _ _ (by omega) (by omega)]
      rfl
    omega
  · have k1 := nbrRow_length_le2_y0 w h x 0 ((x : Int) - 1) rfl
    have k2 := nbrRow_length_le1_y0_center w h x 0 rfl
    have k3 := nbrRow_length_le2_y0 w h x 0 ((x : Int) + 1) rfl
    omega
  · have k1 := nbrRow_length_le2_ytop w h x y ((x : Int) - 1) hy
    have k2 := nbrRow_length_le1_ytop_center w h x y hy
    have k3 := nbrRow_length_le2_ytop w h x y ((x : Int) + 1) hy
    omega

theorem neighbors_length_interior (w h x y : Nat) (hx1 : 1 ≤ x) (hx2 : x + 1 < w)
    (hy1 : 1 ≤ y) (hy2 : y + 1 < h) : (neighbors w h x y).length = 8 := by
  unfold neighbors
  simp only [List.length_append]
  have h1 : (nbrRow w h x y ((x : Int) - 1)).length = 3 :=
    nbrRow_length_full _ _ _ _ _ (by omega) (by omega) (by omega) hy1 hy2
  have h2 : (nbrRow w h x y (x : Int)).length = 2 :=
    nbrRow_length_center_full _ _ _ _ (by omega) hy1 hy2
  have h3 : (nbrRow w h x y ((x : Int) + 1)).length = 3 :=
    nbrRow_length_full _ _ _ _ _ (by omega) (by omega) (by omega) hy1 hy2
  omega

theorem surroundingMines_eq_filter (g : Game) (x y : Nat) :
    surroundingMines g x y
      = ((neighbors g.width g.height x y).filter (fun p => mineAt g p)).length := by
  unfold surroundingMines
  rw [sum_filterMap_ones]
  apply Nat.mod_eq_of_lt
  have h1 : ((neighbors g.width g.height x y).filter (mineAt g)).length
      ≤ (neighbors g.width g.height x y).length := List.length_filter_le _ _
  have h2 := neighbors_length_le g.width g.height x y
  omega

theorem surroundingMines_le8 (g : Game) (x y : Nat) : surroundingMines g x y ≤ 8 := by
  rw [surroundingMines_eq_filter]
  have h1 : ((neighbors g.width g.height x y).filter (fun p => mineAt g p)).length
      ≤ (neighbors g.width g.height x y).length := List.length_filter_le _ _
  have h2 := neighbors_length_le g.width g.height x y
  omega

/-- A cell with no surrounding mines has no mine among its neighbors. -/
theorem surroundingMines_zero_nbr (g : Game) (x y : Nat)
    (hz : surroundingMines g x y = 0) (p : Nat × Nat)
    (hp : p ∈ neighbors g.width g.height x y) : mineAt g p = false := by
  rw [surroundingMines_eq_filter] at hz
  have hnil := List.length_eq_zero.mp hz
  by_contra hc
  have hmem : p ∈ (neighbors g.width g.height x y).filter (fun p => mineAt g p) :=
    List.mem_filter.mpr ⟨hp, by simpa using hc⟩
  rw [hnil] at hmem
  simp at hmem

theorem StepOk_wf {g g' : Game} (h : StepOk g g') (hwf : wf g) : wf g' := by
  unfold wf at hwf ⊢
  rw [h.2.2.2.2.2.1, h.1, h.2.1, hwf]

theorem stateAt_set_self (g : Game) (x y : Nat) (st : CellState) (hwf : wf g)
    (hx : x < g.width) (hy : y < g.height) :
    stateAt (setCellState g x y st) (x, y) = st := by
  unfold stateAt getCell
  have heq : positionIndex (setCellState g x y st) x y = positionIndex g x y := rfl
  rw [heq, cells_set_getD, if_pos ⟨rfl, positionIndex_lt g x y hwf hx hy⟩]

theorem stateAt_set_other (g : Game) (x y : Nat) (st : CellState) (p : Nat × Nat)
    (hx : x < g.width) (hp : p.1 < g.width) (hne : p ≠ (x, y)) :
    stateAt (setCellState g x y st) p = stateAt g p := by
  obtain ⟨a, b⟩ := p
  unfold stateAt getCell
  have heq : positionIndex (setCellState g x y st) a b = positionIndex g a b := rfl
  rw [heq, cells_set_getD, if_neg]
  rintro ⟨h1, _⟩
  obtain ⟨ha, hb⟩ := positionIndex_inj g a b x y hp hx h1
  exact hne (by rw [ha, hb])

/-- Equal sufficient fuels give equal reveal results (inner fold form). -/
theorem foldl_reveal_fuel_congr (n m : Nat)
    (ih : ∀ (g : Game) (x y : Nat), wf g → x < g.width → y < g.height →
      hiddenCount g < n → hiddenCount g < m → revealF n g x y = revealF m g x y) :
    ∀ (ns : List (Nat × Nat)) (ab : Game × Bool) (W H : Nat),
      ab.1.width = W → ab.1.height = H → wf ab.1 →
      (∀ q ∈ ns, q.1 < W ∧ q.2 < H) →
      hiddenCount ab.1 < n → hiddenCount ab.1 < m →
      ns.foldl (fun ab q => ((revealF n ab.1 q.1 q.2).1, ab.2 || (revealF n ab.1 q.1 q.2).2)) ab
        = ns.foldl (fun ab q => ((revealF m ab.1 q.1 q.2).1, ab.2 || (revealF m ab.1 q.1 q.2).2))
            ab := by
  intro ns
  induction ns with
  | nil => intros; rfl
  | cons q t iht =>
    intro ab W H hW hH hwf hq hn hm
    simp only [List.foldl_cons]
    have hq1 := hq q (by simp)
    have heq : revealF n ab.1 q.1 q.2 = revealF m ab.1 q.1 q.2 :=
      ih ab.1 q.1 q.2 hwf (by omega) (by omega) hn hm
    rw [heq]
    have hOk := revealF_StepOk m ab.1 q.1 q.2
    exact iht ((revealF m ab.1 q.1 q.2).1, ab.2 || (revealF m ab.1 q.1 q.2).2) W H
      (by rw [hOk.1, hW]) (by rw [hOk.2.1, hH]) (StepOk_wf hOk hwf)
      (fun r hr => hq r (by simp [hr]))
      (lt_of_le_of_lt (StepOk_hiddenCount hOk) hn)
      (lt_of_le_of_lt (StepOk_hiddenCount hOk) hm)

/-- Any two sufficient fuels compute the same reveal: the recursion always
    terminates within hiddenCount g + 1 nested calls. -/
theorem revealF_fuel_congr : ∀ (n m : Nat) (g : Game) (x y : Nat),
    wf g → x < g.width → y < g.height → hiddenCount g < n → hiddenCount g < m →
    revealF n g x y = revealF m g x y := by
  intro n
  induction n with
  | zero => intro m g x y _ _ _ hn _; omega
  | succ n ih =>
    intro m g x y hwf hx hy hn hm
    cases m with
    | zero => omega
    | succ m =>
      rw [revealF_succ, revealF_succ]
      by_cases h1 : (getCell g x y).state = CellState.Hidden
      · rw [if_pos h1, if_pos h1]
        by_cases h2 : (getCell g x y).mine
        · rw [if_pos h2, if_pos h2]
        · rw [if_neg h2, if_neg h2]
          by_cases h3 : 0 < surroundingMines (setCellState g x y CellState.Revealed) x y
          · rw [if_pos h3, if_pos h3]
          · rw [if_neg h3, if_neg h3]
            have hset := StepOk_set_revealed g x y h1
            have hhc : hiddenCount (setCellState g x y CellState.Revealed) < hiddenCount g :=
              hiddenCount_set_lt g x y hwf hx hy h1
            have hpos : 0 < hiddenCount g := hiddenCount_pos g x y hwf hx hy h1
            exact foldl_reveal_fuel_congr n m (fun g x y a b c d e => ih m g x y a b c d e)
              (neighbors g.width g.height x y) (setCellState g x y CellState.Revealed, false)
              g.width g.height rfl rfl (StepOk_wf hset hwf)
              (fun r hr => neighbors_inBounds hr)
              (show hiddenCount (setCellState g x y CellState.Revealed) < n by omega)
              (show hiddenCount (setCellState g x y CellState.Revealed) < m by omega)
      · rw [if_neg h1, if_neg h1]

/-- With sufficient fuel, revealF computes reveal. -/
theorem revealF_eq_reveal (g : Game) (x y : Nat) (fuel : Nat) (hwf : wf g)
    (hx : x < g.width) (hy : y < g.height) (hfuel : hiddenCount g < fuel) :
    revealF fuel g x y = reveal g x y :=
  revealF_fuel_congr fuel (hiddenCount g + 1) g x y hwf hx hy hfuel (by omega)

/-- The reveal cascade fold never raises the loss signal when every listed
    cell is mine free. -/
theorem foldl_reveal_snd_false (fuel : Nat)
    (ih : ∀ (g : Game) (x y : Nat),
      (mineAt g (x, y) = false ∨ stateAt g (x, y) ≠ CellState.Hidden) →
      (revealF fuel g x y).2 = false) :
    ∀ (ns : List (Nat × Nat)) (g0 : Game) (ab : Game × Bool),
      StepOk g0 ab.1 → ab.2 = false →
      (∀ q ∈ ns, mineAt g0 q = false) →
      (ns.foldl (fun ab q => ((revealF fuel ab.1 q.1 q.2).1, ab.2 || (revealF fuel ab.1 q.1 q.2).2))
        ab).2 = false := by
  intro ns
  induction ns with
  | nil => intro g0 ab _ h2 _; simpa using h2
  | cons q t iht =>
    intro g0 ab hOk h2 hq
    simp only [List.foldl_cons]
    have hmq : mineAt ab.1 q = mineAt g0 q := StepOk_mineAt hOk q
    have hs : (revealF fuel ab.1 q.1 q.2).2 = false := by
      apply ih
      left
      rw [hmq]
      exact hq q (by simp)
    exact iht g0 _ (StepOk_trans hOk (revealF_StepOk fuel ab.1 q.1 q.2))
      (by simp [h2, hs]) (fun r hr => hq r (by simp [hr]))

/-- Revealing a mine free (or non Hidden) cell never raises the loss
    signal: the cascade only recurses into neighbors of zero count cells,
    which are mine free. -/
theorem revealF_noLost : ∀ (fuel : Nat) (g : Game) (x y : Nat),
    (mineAt g (x, y) = false ∨ stateAt g (x, y) ≠ CellState.Hidden) →
    (revealF fuel g x y).2 = false := by
  intro fuel
  induction fuel with
  | zero => intros; rfl
  | succ n ih =>
    intro g x y hm
    rw [revealF_succ]
    by_cases h1 : (getCell g x y).state = CellState.Hidden
    · rw [if_pos h1]
      have hmine : (getCell g x y).mine = false := by
        rcases hm with hm | hm
        · exact hm
        · exact absurd h1 hm
      rw [if_neg (by simp [hmine])]
      by_cases h3 : 0 < surroundingMines (setCellState g x y CellState.Revealed) x y
      · rw [if_pos h3]
      · rw [if_neg h3]
        have hz : surroundingMines (setCellState g x y CellState.Revealed) x y = 0 := by omega
        apply foldl_reveal_snd_false n ih _ (setCellState g x y CellState.Revealed)
          _ (StepOk_refl _) rfl
        intro q hq
        exact surroundingMines_zero_nbr (setCellState g x y CellState.Revealed) x y hz q hq
    · rw [if_neg h1]

/-- Revealing a Hidden mine free cell marks that cell Revealed. -/
theorem revealF_sets_target (fuel : Nat) (g : Game) (x y : Nat) (hwf : wf g)
    (hx : x < g.width) (hy : y < g.height)
    (hH : (getCell g x y).state = CellState.Hidden)
    (hm : (getCell g x y).mine = false) :
    stateAt (revealF (fuel + 1) g x y).1 (x, y) = CellState.Revealed := by
  rw [revealF_succ, if_pos hH, if_neg (by simp [hm])]
  have hbase : stateAt (setCellState g x y CellState.Revealed) (x, y) = CellState.Revealed :=
    stateAt_set_self g x y _ hwf hx hy
  by_cases h3 : 0 < surroundingMines (setCellState g x y CellState.Revealed) x y
  · rw [if_pos h3]
    exact hbase
  · rw [if_neg h3]
    exact StepOk_revealed
      (foldl_reveal_StepOk fuel _ _ (revealF_StepOk fuel)) (x, y) hbase

theorem ZReach_isZero {g : Game} {s q : Nat × Nat} (h : ZReach g s q) : isZero g q := by
  cases h with
  | base h => exact h
  | step p q _ _ hz => exact hz

theorem InRevealSet_inBounds {g : Game} {s q : Nat × Nat} (h : InRevealSet g s q) :
    inBoundsP g q := by
  rcases h with h | ⟨p, _, hq⟩
  · exact (ZReach_isZero h).1
  · exact neighbors_inBounds hq

theorem InRevealSet_not_mine {g : Game} {s q : Nat × Nat} (h : InRevealSet g s q) :
    mineAt g q = false := by
  rcases h with h | ⟨p, hp, hq⟩
  · exact (ZReach_isZero h).2.1
  · exact surroundingMines_zero_nbr g p.1 p.2 (ZReach_isZero hp).2.2 q hq

theorem InRevealSet_zero_reach {g : Game} {s q : Nat × Nat} (h : InRevealSet g s q)
    (hz : isZero g q) : ZReach g s q := by
  rcases h with h | ⟨p, hp, hq⟩
  · exact h
  · exact ZReach.step p q hp hq hz

theorem ZReach_nbr_in {g : Game} {s p q : Nat × Nat} (hp : ZReach g s p)
    (hq : q ∈ neighbors g.width g.height p.1 p.2) : InRevealSet g s q :=
  Or.inr ⟨p, hp, hq⟩

/-- The reveal cascade fold changes no cell outside the reveal set. -/
theorem foldl_reveal_outside (g0 : Game) (s : Nat × Nat) (fuel : Nat)
    (ih : ∀ (b : Game) (p : Nat × Nat), StepOk g0 b → InRevealSet g0 s p →
      ∀ q, inBoundsP g0 q → ¬ InRevealSet g0 s q →
        stateAt (revealF fuel b p.1 p.2).1 q = stateAt b q) :
    ∀ (ns : List (Nat × Nat)) (ab : Game × Bool),
      StepOk g0 ab.1 → (∀ r ∈ ns, InRevealSet g0 s r) →
      ∀ q, inBoundsP g0 q → ¬ InRevealSet g0 s q →
        stateAt ((ns.foldl
          (fun ab q => ((revealF fuel ab.1 q.1 q.2).1, ab.2 || (revealF fuel ab.1 q.1 q.2).2))
          ab)).1 q = stateAt ab.1 q := by
  intro ns
  induction ns with
  | nil => intro ab _ _ q _ _; rfl
  | cons r t iht =>
    intro ab hOk hmem q hqin hqout
    simp only [List.foldl_cons]
    have h1 : stateAt ((revealF fuel ab.1 r.1 r.2).1) q = stateAt ab.1 q :=
      ih ab.1 r hOk (hmem r (by simp)) q hqin hqout
    rw [← h1]
    exact iht ((revealF fuel ab.1 r.1 r.2).1, ab.2 || (revealF fuel ab.1 r.1 r.2).2)
      (StepOk_trans hOk (revealF_StepOk fuel ab.1 r.1 r.2))
      (fun r2 hr2 => hmem r2 (by simp [hr2])) q hqin hqout

/-- Soundness of the reveal cascade: starting inside the reveal set, no cell
    outside the reveal set changes state. -/
theorem revealF_outside (g0 : Game) (s : Nat × Nat) :
    ∀ (fuel : Nat) (b : Game) (p : Nat × Nat),
      StepOk g0 b → InRevealSet g0 s p →
      ∀ q, inBoundsP g0 q → ¬ InRevealSet g0 s q →
        stateAt (revealF fuel b p.1 p.2).1 q = stateAt b q := by
  intro fuel
  induction fuel with
  | zero => intros; rfl
  | succ n ih =>
    intro b p hOk hp q hqin hqout
    have hbw : b.width = g0.width := hOk.1
    have hbh : b.height = g0.height := hOk.2.1
    have hpin : inBoundsP g0 p := InRevealSet_inBounds hp
    have hqnp : q ≠ p := by
      intro h
      exact hqout (h ▸ hp)
    rw [revealF_succ]
    by_cases h1 : (getCell b p.1 p.2).state = CellState.Hidden
    · rw [if_pos h1]
      by_cases h2 : (getCell b p.1 p.2).mine
      · rw [if_pos h2]
      · rw [if_neg h2]
        have hp1 : p.1 < g0.width := hpin.1
        have hq1 : q.1 < g0.width := hqin.1
        have hset : stateAt (setCellState b p.1 p.2 CellState.Revealed) q = stateAt b q := by
          apply stateAt_set_other b p.1 p.2 _ q (by omega) (by omega)
          intro hcon
          exact hqnp (by rw [hcon])
        by_cases h3 : 0 < surroundingMines (setCellState b p.1 p.2 CellState.Revealed) p.1 p.2
        · rw [if_pos h3]
          exact hset
        · rw [if_neg h3]
          have hOk1 : StepOk g0 (setCellState b p.1 p.2 CellState.Revealed) :=
            StepOk_trans hOk (StepOk_set_revealed b p.1 p.2 h1)
          have hz : surroundingMines g0 p.1 p.2 = 0 := by
            have := surroundingMines_congr hOk1 p.1 p.2
            omega
          have hzp : isZero g0 p := ⟨hpin, InRevealSet_not_mine hp, hz⟩
          have hZp : ZReach g0 s p := InRevealSet_zero_reach hp hzp
          have hnbEq : neighbors b.width b.height p.1 p.2
              = neighbors g0.width g0.height p.1 p.2 := by rw [hbw, hbh]
          rw [hnbEq]
          rw [← hset]
          exact foldl_reveal_outside g0 s n ih _ _ hOk1
            (fun r hr => ZReach_nbr_in hZp hr) q hqin hqout
    · rw [if_neg h1]

/-- Completeness invariant for the cascade fold: positions in the pending
    set Sp may temporarily violate the closure property, every other zero
    region cell keeps it, and every listed cell ends Revealed. -/
theorem foldl_reveal_complete (g0 : Game) (s : Nat × Nat) (n : Nat)
    (Sp : Nat × Nat → Prop)
    (ih : ∀ (b : Game) (p : Nat × Nat),
      hiddenCount b < n → StepOk g0 b → InRevealSet g0 s p →
      (∀ q, ZReach g0 s q → ¬ Sp q → stateAt b q = CellState.Revealed →
        ∀ r ∈ neighbors g0.width g0.height q.1 q.2, stateAt b r = CellState.Revealed) →
      (stateAt (revealF n b p.1 p.2).1 p = CellState.Revealed ∧
        (∀ q, ZReach g0 s q → ¬ Sp q →
          stateAt (revealF n b p.1 p.2).1 q = CellState.Revealed →
          ∀ r ∈ neighbors g0.width g0.height q.1 q.2,
            stateAt (revealF n b p.1 p.2).1 r = CellState.Revealed))) :
    ∀ (ns : List (Nat × Nat)) (ab : Game × Bool),
      hiddenCount ab.1 < n → StepOk g0 ab.1 →
      (∀ r ∈ ns, InRevealSet g0 s r) →
      (∀ q, ZReach g0 s q → ¬ Sp q → stateAt ab.1 q = CellState.Revealed →
        ∀ r ∈ neighbors g0.width g0.height q.1 q.2, stateAt ab.1 r = CellState.Revealed) →
      (StepOk ab.1 ((ns.foldl
          (fun ab q => ((revealF n ab.1 q.1 q.2).1, ab.2 || (revealF n ab.1 q.1 q.2).2))
          ab)).1 ∧
        (∀ r ∈ ns, stateAt ((ns.foldl
          (fun ab q => ((revealF n ab.1 q.1 q.2).1, ab.2 || (revealF n ab.1 q.1 q.2).2))
          ab)).1 r = CellState.Revealed) ∧
        (∀ q, ZReach g0 s q → ¬ Sp q →
          stateAt ((ns.foldl
            (fun ab q => ((revealF n ab.1 q.1 q.2).1, ab.2 || (revealF n ab.1 q.1 q.2).2))
            ab)).1 q = CellState.Revealed →
          ∀ r ∈ neighbors g0.width g0.height q.1 q.2,
            stateAt ((ns.foldl
              (fun ab q => ((revealF n ab.1 q.1 q.2).1, ab.2 || (revealF n ab.1 q.1 q.2).2))
              ab)).1 r = CellState.Revealed)) := by
  intro ns
  induction ns with
  | nil =>
    intro ab hc hOk _ hCl
    exact ⟨StepOk_refl _, by simp, hCl⟩
  | cons r t iht =>
    intro ab hc hOk hmem hCl
    simp only [List.foldl_cons]
    obtain ⟨hrRev, hrCl⟩ := ih ab.1 r hc hOk (hmem r (by simp)) hCl
    have hOkr : StepOk ab.1 (revealF n ab.1 r.1 r.2).1 := revealF_StepOk n ab.1 r.1 r.2
    have hcr : hiddenCount (revealF n ab.1 r.1 r.2).1 < n :=
      lt_of_le_of_lt (StepOk_hiddenCount hOkr) hc
    obtain ⟨hOkt, htRev, htCl⟩ :=
      iht ((revealF n ab.1 r.1 r.2).1, ab.2 || (revealF n ab.1 r.1 r.2).2)
        hcr (StepOk_trans hOk hOkr) (fun r2 hr2 => hmem r2 (by simp [hr2])) hrCl
    refine ⟨StepOk_trans hOkr hOkt, ?_, htCl⟩
    intro r2 hr2
    rcases List.mem_cons.mp hr2 with rfl | hr2
    · exact StepOk_revealed hOkt r2 hrRev
    · exact htRev r2 hr2

/-- Completeness of the reveal cascade: a call starting inside the reveal
    set reveals its target and preserves the closure property outside the
    pending set. -/
theorem revealF_complete (g0 : Game) (s : Nat × Nat) (hwf : wf g0)
    (hH : ∀ q, InRevealSet g0 s q → stateAt g0 q = CellState.Hidden) :
    ∀ (fuel : Nat) (b : Game) (p : Nat × Nat) (Sp : Nat × Nat → Prop),
      hiddenCount b < fuel → StepOk g0 b → InRevealSet g0 s p →
      (∀ q, ZReach g0 s q → ¬ Sp q → stateAt b q = CellState.Revealed →
        ∀ r ∈ neighbors g0.width g0.height q.1 q.2, stateAt b r = CellState.Revealed) →
      (stateAt (revealF fuel b p.1 p.2).1 p = CellState.Revealed ∧
        (∀ q, ZReach g0 s q → ¬ Sp q →
          stateAt (revealF fuel b p.1 p.2).1 q = CellState.Revealed →
          ∀ r ∈ neighbors g0.width g0.height q.1 q.2,
            stateAt (revealF fuel b p.1 p.2).1 r = CellState.Revealed)) := by
  intro fuel
  induction fuel with
  | zero => intro b p Sp hc; omega
  | succ n ih =>
    intro b p Sp hc hOk hp hCl
    have hwb : wf b := StepOk_wf hOk hwf
    have hbw : b.width = g0.width := hOk.1
    have hbh : b.height = g0.height := hOk.2.1
    have hpin : inBoundsP g0 p := InRevealSet_inBounds hp
    have hp1 : p.1 < g0.width := hpin.1
    have hp2 : p.2 < g0.height := hpin.2
    have hpm : mineAt g0 p = false := InRevealSet_not_mine hp
    have hpmb : (getCell b p.1 p.2).mine = false := by
      have h := StepOk_mineAt hOk p
      exact h.trans hpm
    rw [revealF_succ]
    by_cases h1 : (getCell b p.1 p.2).state = CellState.Hidden
    case neg =>
      rw [if_neg h1]
      have hst : stateAt g0 p = CellState.Hidden := hH p hp
      rcases StepOk_hidden_or_revealed hOk p hst with hcase | hcase
      · exact absurd hcase h1
      · exact ⟨hcase, hCl⟩
    case pos =>
      rw [if_pos h1, if_neg (by simp [hpmb])]
      have hOk1 : StepOk b (setCellState b p.1 p.2 CellState.Revealed) :=
        StepOk_set_revealed b p.1 p.2 h1
      have hOk01 : StepOk g0 (setCellState b p.1 p.2 CellState.Revealed) :=
        StepOk_trans hOk hOk1
      have hsm : surroundingMines (setCellState b p.1 p.2 CellState.Revealed) p.1 p.2
          = surroundingMines g0 p.1 p.2 := surroundingMines_congr hOk01 p.1 p.2
      have hs1 : stateAt (setCellState b p.1 p.2 CellState.Revealed) p
          = CellState.Revealed := stateAt_set_self b p.1 p.2 _ hwb (by omega) (by omega)
      have hg1other : ∀ q, inBoundsP g0 q → q ≠ p →
          stateAt (setCellState b p.1 p.2 CellState.Revealed) q = stateAt b q := by
        intro q hqin hne
        have hq1 : q.1 < g0.width := hqin.1
        exact stateAt_set_other b p.1 p.2 _ q (by omega) (by omega)
          (fun hcon => hne (by rw [hcon]))
      by_cases h3 : 0 < surroundingMines (setCellState b p.1 p.2 CellState.Revealed) p.1 p.2
      · rw [if_pos h3]
        refine ⟨hs1, ?_⟩
        intro q hZq hSq hqRev r hr
        have hqz := ZReach_isZero hZq
        have hqp : q ≠ p := by
          intro h
          rw [h] at hqz
          have := hqz.2.2
          omega
        rw [hg1other q hqz.1 hqp] at hqRev
        have hrRev := hCl q hZq hSq hqRev r hr
        by_cases hrp : r = p
        · rw [hrp]
          exact hs1
        · rw [hg1other r (neighbors_inBounds hr) hrp]
          exact hrRev
      · rw [if_neg h3]
        have hz0 : surroundingMines g0 p.1 p.2 = 0 := by omega
        have hzp : isZero g0 p := ⟨hpin, hpm, hz0⟩
        have hZp : ZReach g0 s p := InRevealSet_zero_reach hp hzp
        have hnbEq : neighbors b.width b.height p.1 p.2
            = neighbors g0.width g0.height p.1 p.2 := by rw [hbw, hbh]
        rw [hnbEq]
        have hcpos : 0 < hiddenCount b :=
          hiddenCount_pos b p.1 p.2 hwb (by omega) (by omega) h1
        have hcset : hiddenCount (setCellState b p.1 p.2 CellState.Revealed) < hiddenCount b :=
          hiddenCount_set_lt b p.1 p.2 hwb (by omega) (by omega) h1
        have hCl1 : ∀ q, ZReach g0 s q → ¬ (Sp q ∨ q = p) →
            stateAt (setCellState b p.1 p.2 CellState.Revealed) q = CellState.Revealed →
            ∀ r ∈ neighbors g0.width g0.height q.1 q.2,
              stateAt (setCellState b p.1 p.2 CellState.Revealed) r = CellState.Revealed := by
          intro q hZq hSq hqRev r hr
          have hqp : q ≠ p := fun h => hSq (Or.inr h)
          have hqS : ¬ Sp q := fun h => hSq (Or.inl h)
          rw [hg1other q (ZReach_isZero hZq).1 hqp] at hqRev
          have hrRev := hCl q hZq hqS hqRev r hr
          by_cases hrp : r = p
          · rw [hrp]
            exact hs1
          · rw [hg1other r (neighbors_inBounds hr) hrp]
            exact hrRev
        obtain ⟨hOkF, hallRev, hClF⟩ := foldl_reveal_complete g0 s n (fun q => Sp q ∨ q = p)
          (fun b2 p2 => ih b2 p2 (fun q => Sp q ∨ q = p))
          (neighbors g0.width g0.height p.1 p.2)
          (setCellState b p.1 p.2 CellState.Revealed, false)
          (show hiddenCount (setCellState b p.1 p.2 CellState.Revealed) < n by omega)
          hOk01
          (fun r hr => ZReach_nbr_in hZp hr)
          hCl1
        refine ⟨StepOk_revealed hOkF p hs1, ?_⟩
        intro q hZq hSq hqRev r hr
        by_cases hqp : q = p
        · subst hqp
          exact hallRev r hr
        · exact hClF q hZq (fun h => h.elim hSq hqp) hqRev r hr

/-- Revealing a Hidden zero cell on a board whose reveal set is entirely
    Hidden reveals the whole reveal set. -/
theorem reveal_region_revealed (g0 : Game) (s : Nat × Nat) (hwf : wf g0)
    (hzs : isZero g0 s)
    (hH : ∀ q, InRevealSet g0 s q → stateAt g0 q = CellState.Hidden) :
    ∀ q, InRevealSet g0 s q → stateAt (reveal g0 s.1 s.2).1 q = CellState.Revealed := by
  have hsIn : InRevealSet g0 s s := Or.inl (ZReach.base hzs)
  have hCl0 : ∀ q, ZReach g0 s q → ¬ False → stateAt g0 q = CellState.Revealed →
      ∀ r ∈ neighbors g0.width g0.height q.1 q.2, stateAt g0 r = CellState.Revealed := by
    intro q hZq _ hqRev
    rw [hH q (Or.inl hZq)] at hqRev
    simp at hqRev
  obtain ⟨hsRev, hClF⟩ := revealF_complete g0 s hwf hH (hiddenCount g0 + 1) g0 s
    (fun _ => False) (by omega) (StepOk_refl g0) hsIn hCl0
  have hreg : ∀ q, ZReach g0 s q →
      stateAt (revealF (hiddenCount g0 + 1) g0 s.1 s.2).1 q = CellState.Revealed := by
    intro q hq
    induction hq with
    | base h => exact hsRev
    | step p2 q2 hZp2 hnb2 hz2 ihp2 =>
      exact hClF p2 hZp2 not_false ihp2 q2 hnb2
  intro q hq
  show stateAt (revealF (hiddenCount g0 + 1) g0 s.1 s.2).1 q = CellState.Revealed
  rcases hq with hq | ⟨p2, hp2, hnb2⟩
  · exact hreg q hq
  · exact hClF p2 hp2 not_false (hreg p2 hp2) q hnb2

/-- did_win holds exactly when every mine cell is Flagged. -/
theorem did_win_iff (g : Game) :
    did_win g = true ↔ ∀ c ∈ g.cells, c.mine = true → c.state = CellState.Flagged := by
  unfold did_win
  rw [List.all_eq_true]
  constructor
  · intro h c hc hm
    have := h c (List.mem_filter.mpr ⟨hc, hm⟩)
    simpa using this
  · intro h c hc
    have hmem := List.mem_filter.mp hc
    simpa using h c hmem.1 hmem.2

theorem did_win_of_mineless (g : Game) (h : ∀ c ∈ g.cells, c.mine = false) :
    did_win g = true := by
  rw [did_win_iff]
  intro c hc hm
  rw [h c hc] at hm
  simp at hm

theorem mineless_of_StepOk {g g' : Game} (h : StepOk g g')
    (hm : ∀ c ∈ g.cells, c.mine = false) : ∀ c ∈ g'.cells, c.mine = false := by
  rw [forall_mem_iff_getD dflt (fun c => c.mine = false)] at hm ⊢
  intro i hi
  have hlen := h.2.2.2.2.2.1
  have hmi := (h.2.2.2.2.2.2 i).1
  rw [hmi]
  exact hm i (by omega)

theorem getCell_set_self (g : Game) (x y : Nat) (st : CellState) (hwf : wf g)
    (hx : x < g.width) (hy : y < g.height) :
    getCell (setCellState g x y st) x y = { getCell g x y with state := st } := by
  unfold getCell
  have heq : positionIndex (setCellState g x y st) x y = positionIndex g x y := rfl
  rw [heq, cells_set_getD, if_pos ⟨rfl, positionIndex_lt g x y hwf hx hy⟩]
  rfl

theorem mineAt_set (g : Game) (x y : Nat) (st : CellState) (p : Nat × Nat) :
    mineAt (setCellState g x y st) p = mineAt g p := by
  unfold mineAt getCell
  have heq : positionIndex (setCellState g x y st) p.1 p.2 = positionIndex g p.1 p.2 := rfl
  rw [heq, cells_set_getD]
  by_cases h : positionIndex g p.1 p.2 = positionIndex g x y ∧
      positionIndex g x y < g.cells.length
  · rw [if_pos h]
    show (getCell g x y).mine = _
    unfold getCell
    rw [h.1]
  · rw [if_neg h]

theorem set_self_eq {α : Type} (l : List α) (i : Nat) (d : α) (h : i < l.length) :
    l.set i (l.getD i d) = l := by
  induction l generalizing i with
  | nil => rfl
  | cons b t ih =>
    cases i with
    | zero => rfl
    | succ n =>
      simp only [List.set_cons_succ, List.getD_cons_succ]
      rw [ih n (by simpa using h)]

theorem surroundingMines_set (g : Game) (x y : Nat) (st : CellState) (a b : Nat) :
    surroundingMines (setCellState g x y st) a b = surroundingMines g a b := by
  unfold surroundingMines
  have hw : (setCellState g x y st).width = g.width := rfl
  have hh : (setCellState g x y st).height = g.height := rfl
  rw [hw, hh]
  have heq : (neighbors g.width g.height a b).filterMap
      (fun p => if mineAt (setCellState g x y st) p then some 1 else none)
      = (neighbors g.width g.height a b).filterMap
        (fun p => if mineAt g p then some 1 else none) :=
    filterMap_congr_mem _ _ _ (fun p _ => by rw [mineAt_set])
  rw [heq]

theorem reveal_StepOk (g : Game) (x y : Nat) : StepOk g (reveal g x y).1 :=
  revealF_StepOk _ g x y

theorem reveal_noLost (g : Game) (x y : Nat)
    (h : mineAt g (x, y) = false ∨ stateAt g (x, y) ≠ CellState.Hidden) :
    (reveal g x y).2 = false := revealF_noLost _ g x y h

theorem reveal_not_hidden (g : Game) (x y : Nat)
    (h : ¬ (getCell g x y).state = CellState.Hidden) : reveal g x y = (g, false) := by
  unfold reveal
  rw [revealF_succ, if_neg h]

theorem reveal_hidden_mine (g : Game) (x y : Nat)
    (hH : (getCell g x y).state = CellState.Hidden) (hm : (getCell g x y).mine = true) :
    reveal g x y = (g, true) := by
  unfold reveal
  rw [revealF_succ, if_pos hH, if_pos hm]

theorem reveal_sets_target (g : Game) (x y : Nat) (hwf : wf g) (hx : x < g.width)
    (hy : y < g.height) (hH : (getCell g x y).state = CellState.Hidden)
    (hm : (getCell g x y).mine = false) :
    stateAt (reveal g x y).1 (x, y) = CellState.Revealed :=
  revealF_sets_target (hiddenCount g) g x y hwf hx hy hH hm

theorem reveal_nonzero (g : Game) (x y : Nat)
    (hH : (getCell g x y).state = CellState.Hidden) (hm : (getCell g x y).mine = false)
    (h3 : 0 < surroundingMines g x y) :
    reveal g x y = (setCellState g x y CellState.Revealed, false) := by
  unfold reveal
  rw [revealF_succ, if_pos hH, if_neg (by simp [hm]),
    if_pos (by rw [surroundingMines_set]; exact h3)]

theorem reveal_hiddenCount_le (g : Game) (x y : Nat) :
    hiddenCount (reveal g x y).1 ≤ hiddenCount g :=
  StepOk_hiddenCount (reveal_StepOk g x y)

theorem reveal_hiddenCount_lt (g : Game) (x y : Nat) (hwf : wf g) (hx : x < g.width)
    (hy : y < g.height) (hH : (getCell g x y).state = CellState.Hidden)
    (hm : (getCell g x y).mine = false) :
    hiddenCount (reveal g x y).1 < hiddenCount g := by
  unfold reveal
  rw [revealF_succ, if_pos hH, if_neg (by simp [hm])]
  have h1 : hiddenCount (setCellState g x y CellState.Revealed) < hiddenCount g :=
    hiddenCount_set_lt g x y hwf hx hy hH
  by_cases h3 : 0 < surroundingMines (setCellState g x y CellState.Revealed) x y
  · rw [if_pos h3]
    exact h1
  · rw [if_neg h3]
    have h2 : hiddenCount ((neighbors g.width g.height x y).foldl
        (fun ab q => ((revealF (hiddenCount g) ab.1 q.1 q.2).1,
          ab.2 || (revealF (hiddenCount g) ab.1 q.1 q.2).2))
        (setCellState g x y CellState.Revealed, false)).1
        ≤ hiddenCount (setCellState g x y CellState.Revealed) :=
      StepOk_hiddenCount (foldl_reveal_StepOk (hiddenCount g) _ _
        (revealF_StepOk (hiddenCount g)))
    omega




theorem cells_set_getD_mine (g : Game) (x y : Nat) (st : CellState) (i : Nat) :
    ((setCellState g x y st).cells.getD i dflt).mine = (g.cells.getD i dflt).mine := by
  rw [cells_set_getD]
  by_cases h : i = positionIndex g x y ∧ positionIndex g x y < g.cells.length
  · rw [if_pos h]
    show (getCell g x y).mine = _
    unfold getCell
    rw [h.1]
  · rw [if_neg h]

theorem flagToggle_cells_length (g : Game) (x y : Nat) :
    (flagToggle g x y).cells.length = g.cells.length := by
  unfold flagToggle
  cases (getCell g x y).state <;> simp [setCellState, List.length_set]

/-- C3: did_win is true exactly when every mine cell is Flagged; the states
    of non mine cells have no influence (in particular flag toggling a non
    mine cell never changes the verdict), and a board with zero mines wins
    vacuously. -/
theorem claim_C3_win_predicate (g : Game) :
    (did_win g = true ↔ ∀ c ∈ g.cells, c.mine = true → c.state = CellState.Flagged) ∧
    (∀ g' : Game, g'.cells.length = g.cells.length →
      (∀ i, (g'.cells.getD i dflt).mine = (g.cells.getD i dflt).mine) →
      (∀ i, (g.cells.getD i dflt).mine = true →
        (g'.cells.getD i dflt).state = (g.cells.getD i dflt).state) →
      did_win g' = did_win g) ∧
    (∀ x y : Nat, mineAt g (x, y) = false →
      did_win (flagToggle g x y) = did_win g) ∧
    ((∀ c ∈ g.cells, c.mine = false) → did_win g = true) := by
  have hinv : ∀ g' : Game, g'.cells.length = g.cells.length →
      (∀ i, (g'.cells.getD i dflt).mine = (g.cells.getD i dflt).mine) →
      (∀ i, (g.cells.getD i dflt).mine = true →
        (g'.cells.getD i dflt).state = (g.cells.getD i dflt).state) →
      did_win g' = did_win g := by
    intro g' hlen hm hs
    have h1 := did_win_iff g
    have h2 := did_win_iff g'
    have hequiv : (∀ c ∈ g'.cells, c.mine = true → c.state = CellState.Flagged) ↔
        (∀ c ∈ g.cells, c.mine = true → c.state = CellState.Flagged) := by
      rw [forall_mem_iff_getD dflt (fun c => c.mine = true → c.state = CellState.Flagged),
        forall_mem_iff_getD dflt (fun c => c.mine = true → c.state = CellState.Flagged)]
      constructor
      · intro h i hi hmine
        have hmine2 : (g'.cells.getD i dflt).mine = true := by rw [hm i]; exact hmine
        have := h i (by omega) hmine2
        rw [← hs i hmine]
        exact this
      · intro h i hi hmine
        have hmine2 : (g.cells.getD i dflt).mine = true := by rw [← hm i]; exact hmine
        have := h i (by omega) hmine2
        rw [hs i hmine2]
        exact this
    by_cases hg : did_win g = true
    · rw [hg, h2, hequiv, ← h1]
      exact hg
    · have hg' : ¬ did_win g' = true := by
        rw [h2, hequiv, ← h1]
        exact hg
      rw [Bool.not_eq_true] at hg hg'
      rw [hg, hg']
  refine ⟨did_win_iff g, hinv, ?_, did_win_of_mineless g⟩
  intro x y hmine
  apply hinv
  · exact flagToggle_cells_length g x y
  · intro i
    unfold flagToggle
    cases hst : (getCell g x y).state
    · exact cells_set_getD_mine g x y _ i
    · rfl
    · exact cells_set_getD_mine g x y _ i
  · intro i hi
    have hcond : ¬ (i = positionIndex g x y ∧ positionIndex g x y < g.cells.length) := by
      rintro ⟨h1, _⟩
      subst h1
      have hmm : (getCell g x y).mine = true := hi
      rw [show (getCell g x y).mine = mineAt g (x, y) from rfl, hmine] at hmm
      exact absurd hmm (by simp)
    unfold flagToggle
    cases hst : (getCell g x y).state
    · rw [cells_set_getD, if_neg hcond]
    · rfl
    · rw [cells_set_getD, if_neg hcond]


theorem claim_C3_witness : did_win gC3 = true :=
  (claim_C3_win_predicate gC3).1.mpr (by decide)

/-- C4: the reveal recursion terminates on every board: any fuel beyond the
    Hidden cell count already computes the stable result reveal, the Hidden
    count never increases, and it strictly decreases whenever a Hidden non
    mine cell is actually revealed (so re-visits stop immediately). -/
theorem claim_C4_termination (g : Game) (x y : Nat) (hwf : wf g) (hx : x < g.width)
    (hy : y < g.height) :
    (∀ fuel, hiddenCount g < fuel → revealF fuel g x y = reveal g x y) ∧
    hiddenCount (reveal g x y).1 ≤ hiddenCount g ∧
    (stateAt g (x, y) = CellState.Hidden → mineAt g (x, y) = false →
      hiddenCount (reveal g x y).1 < hiddenCount g) := by
  refine ⟨?_, reveal_hiddenCount_le g x y, ?_⟩
  · intro fuel hfuel
    exact revealF_eq_reveal g x y fuel hwf hx hy hfuel
  · intro hH hm
    exact reveal_hiddenCount_lt g x y hwf hx hy hH hm


theorem claim_C4_witness :
    revealF 7 gC4 0 0 = reveal gC4 0 0 ∧
    hiddenCount (reveal gC4 0 0).1 < hiddenCount gC4 :=
  ⟨(claim_C4_termination gC4 0 0 (by decide) (by decide) (by decide)).1 7 (by decide),
   (claim_C4_termination gC4 0 0 (by decide) (by decide) (by decide)).2.2
     (by decide) (by decide)⟩

/-- C5: revealing a Hidden mine leaves every cell of the grid untouched
    (the triggering cell stays Hidden) and moves the session to the Lost
    modal: the loss is signaled by the session, not by cell mutation. -/
theorem claim_C5_mine_loss (draws : Nat → Nat) (g : Game)
    (hH : stateAt g g.cursor = CellState.Hidden)
    (hm : mineAt g g.cursor = true) :
    reveal g g.cursor.1 g.cursor.2 = (g, true) ∧
    step draws g Mode.Playing (Key.Char ' ') = (g, Mode.Lost) := by
  have h1 : reveal g g.cursor.1 g.cursor.2 = (g, true) := reveal_hidden_mine _ _ _ hH hm
  refine ⟨h1, ?_⟩
  show (if (getCell g g.cursor.1 g.cursor.2).state = CellState.Hidden then
      if (reveal g g.cursor.1 g.cursor.2).2
      then ((reveal g g.cursor.1 g.cursor.2).1, Mode.Lost)
      else afterAction (reveal g g.cursor.1 g.cursor.2).1
    else afterAction g) = (g, Mode.Lost)
  rw [if_pos (show (getCell g g.cursor.1 g.cursor.2).state = CellState.Hidden from hH), h1]
  rfl


theorem claim_C5_witness :
    step (fun _ => 5) gC5 Mode.Playing (Key.Char ' ') = (gC5, Mode.Lost) :=
  (claim_C5_mine_loss (fun _ => 5) gC5 (by decide) (by decide)).2

/-- C6: reveal is a no-op without loss on any non Hidden (Revealed or
    Flagged) cell, and after revealing a Hidden non mine cell the second
    reveal of the same cell is a no-op, so reveal is idempotent there. -/
theorem claim_C6_idempotent (g : Game) (x y : Nat) (hwf : wf g) (hx : x < g.width)
    (hy : y < g.height) :
    (stateAt g (x, y) ≠ CellState.Hidden → reveal g x y = (g, false)) ∧
    (stateAt g (x, y) = CellState.Hidden → mineAt g (x, y) = false →
      stateAt (reveal g x y).1 (x, y) = CellState.Revealed ∧
      reveal (reveal g x y).1 x y = ((reveal g x y).1, false)) := by
  constructor
  · intro h
    exact reveal_not_hidden g x y h
  · intro hH hm
    have h1 := reveal_sets_target g x y hwf hx hy hH hm
    refine ⟨h1, ?_⟩
    apply reveal_not_hidden
    intro hcon
    rw [show stateAt (reveal g x y).1 (x, y)
      = (getCell (reveal g x y).1 x y).state from rfl, hcon] at h1
    exact absurd h1 (by simp)


theorem claim_C6_witness :
    reveal gC6 1 0 = (gC6, false) ∧
    reveal (reveal gC6 0 0).1 0 0 = ((reveal gC6 0 0).1, false) :=
  ⟨(claim_C6_idempotent gC6 1 0 (by decide) (by decide) (by decide)).1 (by decide),
   ((claim_C6_idempotent gC6 0 0 (by decide) (by decide) (by decide)).2
     (by decide) (by decide)).2⟩

/-- C9: the neighbor list is exactly the Moore neighborhood clipped to the
    board and excluding the center, without duplicates; corners have at most
    3 entries, boundary cells at most 5, interior cells exactly 8; the
    surrounding mine count is the exact number of mine neighbors and is at
    most 8. -/
theorem claim_C9_neighborhood (g : Game) (x y : Nat) (hx : x < g.width)
    (hy : y < g.height) :
    (∀ a b : Nat, (a, b) ∈ neighbors g.width g.height x y ↔
      (a < g.width ∧ b < g.height ∧ ((a : Int) - (x : Int)).natAbs ≤ 1 ∧
        ((b : Int) - (y : Int)).natAbs ≤ 1 ∧ ¬(a = x ∧ b = y))) ∧
    (neighbors g.width g.height x y).Nodup ∧
    ((x = 0 ∨ x + 1 = g.width) → (y = 0 ∨ y + 1 = g.height) →
      (neighbors g.width g.height x y).length ≤ 3) ∧
    ((x = 0 ∨ x + 1 = g.width ∨ y = 0 ∨ y + 1 = g.height) →
      (neighbors g.width g.height x y).length ≤ 5) ∧
    (1 ≤ x → x + 1 < g.width → 1 ≤ y → y + 1 < g.height →
      (neighbors g.width g.height x y).length = 8) ∧
    surroundingMines g x y
      = ((neighbors g.width g.height x y).filter (fun p => mineAt g p)).length ∧
    surroundingMines g x y ≤ 8 :=
  ⟨fun a b => mem_neighbors, neighbors_nodup g.width g.height x y,
    neighbors_length_corner g.width g.height x y,
    neighbors_length_edge g.width g.height x y,
    neighbors_length_interior g.width g.height x y,
    surroundingMines_eq_filter g x y, surroundingMines_le8 g x y⟩


theorem claim_C9_witness :
    (neighbors gC9.width gC9.height 1 1).length = 8 ∧ surroundingMines gC9 1 1 = 2 := by
  have h := claim_C9_neighborhood gC9 1 1 (by decide) (by decide)
  refine ⟨h.2.2.2.2.1 (by decide) (by decide) (by decide) (by decide), ?_⟩
  rw [h.2.2.2.2.2.1]
  decide

theorem wf_setCellState (g : Game) (x y : Nat) (st : CellState) (hwf : wf g) :
    wf (setCellState g x y st) := by
  unfold wf at hwf ⊢
  show (g.cells.set (positionIndex g x y) { getCell g x y with state := st }).length
    = g.width * g.height
  rw [List.length_set]
  exact hwf

/-- C7: the flag toggle maps Hidden to Flagged and Flagged to Hidden, is a
    no-op on a Revealed cell, changes no other cell, no mine flag and no
    other session field, is what the f and F keys run on the cursor cell,
    and applying it twice restores the toggled cell to its original
    state. -/
theorem claim_C7_flag_toggle (draws : Nat → Nat) (g : Game) (x y : Nat) (hwf : wf g)
    (hx : x < g.width) (hy : y < g.height) :
    (stateAt g (x, y) = CellState.Hidden →
      stateAt (flagToggle g x y) (x, y) = CellState.Flagged) ∧
    (stateAt g (x, y) = CellState.Flagged →
      stateAt (flagToggle g x y) (x, y) = CellState.Hidden) ∧
    (stateAt g (x, y) = CellState.Revealed → flagToggle g x y = g) ∧
    (∀ p : Nat × Nat, p.1 < g.width → p ≠ (x, y) →
      stateAt (flagToggle g x y) p = stateAt g p) ∧
    (∀ p : Nat × Nat, mineAt (flagToggle g x y) p = mineAt g p) ∧
    (flagToggle g x y).cursor = g.cursor ∧
    (flagToggle g x y).width = g.width ∧
    (flagToggle g x y).height = g.height ∧
    (flagToggle g x y).startTime = g.startTime ∧
    (step draws g Mode.Playing (Key.Char 'f')).1 = flagToggle g g.cursor.1 g.cursor.2 ∧
    (step draws g Mode.Playing (Key.Char 'F')).1 = flagToggle g g.cursor.1 g.cursor.2 ∧
    stateAt (flagToggle (flagToggle g x y) x y) (x, y) = stateAt g (x, y) := by
  have hH2F : stateAt g (x, y) = CellState.Hidden →
      flagToggle g x y = setCellState g x y CellState.Flagged := by
    intro h
    unfold flagToggle
    rw [show (getCell g x y).state = CellState.Hidden from h]
  have hF2H : stateAt g (x, y) = CellState.Flagged →
      flagToggle g x y = setCellState g x y CellState.Hidden := by
    intro h
    unfold flagToggle
    rw [show (getCell g x y).state = CellState.Flagged from h]
  have hRid : stateAt g (x, y) = CellState.Revealed → flagToggle g x y = g := by
    intro h
    unfold flagToggle
    rw [show (getCell g x y).state = CellState.Revealed from h]
  have hother : ∀ p : Nat × Nat, p.1 < g.width → p ≠ (x, y) →
      stateAt (flagToggle g x y) p = stateAt g p := by
    intro p hp hne
    cases hst : (getCell g x y).state
    · rw [hH2F hst]
      exact stateAt_set_other g x y _ p hx hp hne
    · rw [hRid hst]
    · rw [hF2H hst]
      exact stateAt_set_other g x y _ p hx hp hne
  have hmines : ∀ p : Nat × Nat, mineAt (flagToggle g x y) p = mineAt g p := by
    intro p
    cases hst : (getCell g x y).state
    · rw [hH2F hst]
      exact mineAt_set g x y _ p
    · rw [hRid hst]
    · rw [hF2H hst]
      exact mineAt_set g x y _ p
  have hfields : (flagToggle g x y).cursor = g.cursor ∧ (flagToggle g x y).width = g.width ∧
      (flagToggle g x y).height = g.height ∧ (flagToggle g x y).startTime = g.startTime := by
    unfold flagToggle
    cases (getCell g x y).state <;> exact ⟨rfl, rfl, rfl, rfl⟩
  have hdouble : stateAt (flagToggle (flagToggle g x y) x y) (x, y) = stateAt g (x, y) := by
    cases hst : stateAt g (x, y)
    · rw [hH2F hst]
      have hs1 : stateAt (setCellState g x y CellState.Flagged) (x, y) = CellState.Flagged :=
        stateAt_set_self g x y _ hwf hx hy
      have h2 : flagToggle (setCellState g x y CellState.Flagged) x y
          = setCellState (setCellState g x y CellState.Flagged) x y CellState.Hidden := by
        unfold flagToggle
        rw [show (getCell (setCellState g x y CellState.Flagged) x y).state
          = CellState.Flagged from hs1]
      rw [h2, stateAt_set_self _ x y _ (wf_setCellState g x y _ hwf) hx hy]
    · rw [hRid hst, hRid hst]
      exact hst
    · rw [hF2H hst]
      have hs1 : stateAt (setCellState g x y CellState.Hidden) (x, y) = CellState.Hidden :=
        stateAt_set_self g x y _ hwf hx hy
      have h2 : flagToggle (setCellState g x y CellState.Hidden) x y
          = setCellState (setCellState g x y CellState.Hidden) x y CellState.Flagged := by
        unfold flagToggle
        rw [show (getCell (setCellState g x y CellState.Hidden) x y).state
          = CellState.Hidden from hs1]
      rw [h2, stateAt_set_self _ x y _ (wf_setCellState g x y _ hwf) hx hy]
  refine ⟨?_, ?_, hRid, hother, hmines, hfields.1, hfields.2.1, hfields.2.2.1,
    hfields.2.2.2, rfl, rfl, hdouble⟩
  · intro h
    rw [hH2F h]
    exact stateAt_set_self g x y _ hwf hx hy
  · intro h
    rw [hF2H h]
    exact stateAt_set_self g x y _ hwf hx hy


theorem claim_C7_witness :
    stateAt (flagToggle gC7 0 0) (0, 0) = CellState.Flagged ∧
    stateAt (flagToggle (flagToggle gC7 0 0) 0 0) (0, 0) = stateAt gC7 (0, 0) := by
  have h := claim_C7_flag_toggle (fun _ => 0) gC7 0 0 (by decide) (by decide) (by decide)
  exact ⟨h.1 (by decide), h.2.2.2.2.2.2.2.2.2.2.2⟩

/-- Movement keys clamp the cursor and preserve the board dimensions. -/
theorem step_move_cursor (draws : Nat → Nat) (g : Game) (m : Mode) (k : Key)
    (hk : k = Key.Left ∨ k = Key.Right ∨ k = Key.Up ∨ k = Key.Down)
    (hw : 1 ≤ g.width) (hh : 1 ≤ g.height)
    (hcx : g.cursor.1 < g.width) (hcy : g.cursor.2 < g.height) :
    (step draws g m k).1.width = g.width ∧ (step draws g m k).1.height = g.height ∧
    (step draws g m k).1.cursor.1 < g.width ∧ (step draws g m k).1.cursor.2 < g.height := by
  rcases hk with rfl | rfl | rfl | rfl <;> cases m <;>
    try exact ⟨rfl, rfl, hcx, hcy⟩
  · refine ⟨rfl, rfl, ?_, hcy⟩
    show (max ((g.cursor.1 : Int) - 1) 0).toNat < g.width
    have h2 : max ((g.cursor.1 : Int) - 1) 0 ≤ (g.cursor.1 : Int) :=
      max_le (by omega) (by omega)
    omega
  · refine ⟨rfl, rfl, ?_, hcy⟩
    show min (g.cursor.1 + 1) (g.width - 1) < g.width
    omega
  · refine ⟨rfl, rfl, hcx, ?_⟩
    show (max ((g.cursor.2 : Int) - 1) 0).toNat < g.height
    have h2 : max ((g.cursor.2 : Int) - 1) 0 ≤ (g.cursor.2 : Int) :=
      max_le (by omega) (by omega)
    omega
  · refine ⟨rfl, rfl, hcx, ?_⟩
    show min (g.cursor.2 + 1) (g.height - 1) < g.height
    omega

/-- C8: on a board with positive dimensions, any finite sequence of movement
    key events keeps the cursor inside the board: clamping never wraps. -/
theorem claim_C8_cursor_bounds (draws : Nat → Nat) (g : Game) (m : Mode)
    (ks : List Key) (hw : 1 ≤ g.width) (hh : 1 ≤ g.height)
    (hcx : g.cursor.1 < g.width) (hcy : g.cursor.2 < g.height)
    (hmov : ∀ k ∈ ks, k = Key.Left ∨ k = Key.Right ∨ k = Key.Up ∨ k = Key.Down) :
    (runKeys draws (g, m) ks).1.cursor.1 < g.width ∧
    (runKeys draws (g, m) ks).1.cursor.2 < g.height := by
  induction ks generalizing g m with
  | nil => exact ⟨hcx, hcy⟩
  | cons k t ih =>
    have hk := hmov k (by simp)
    obtain ⟨hW, hHt, hx2, hy2⟩ := step_move_cursor draws g m k hk hw hh hcx hcy
    have hw2 : 1 ≤ (step draws g m k).1.width := by rw [hW]; exact hw
    have hh3 : 1 ≤ (step draws g m k).1.height := by rw [hHt]; exact hh
    have hx3 : (step draws g m k).1.cursor.1 < (step draws g m k).1.width := by
      rw [hW]; exact hx2
    have hy3 : (step draws g m k).1.cursor.2 < (step draws g m k).1.height := by
      rw [hHt]; exact hy2
    have hind := ih (step draws g m k).1 (step draws g m k).2 hw2 hh3 hx3 hy3
      (fun k2 hk2 => hmov k2 (by simp [hk2]))
    rw [hW, hHt] at hind
    simp only [runKeys, List.foldl_cons] at hind ⊢
    exact hind


theorem claim_C8_witness :
    (runKeys (fun _ => 0) (gC8, Mode.Playing)
      [Key.Right, Key.Right, Key.Down, Key.Left, Key.Up]).1.cursor.1 < gC8.width ∧
    (runKeys (fun _ => 0) (gC8, Mode.Playing)
      [Key.Right, Key.Right, Key.Down, Key.Left, Key.Up]).1.cursor.2 < gC8.height :=
  claim_C8_cursor_bounds (fun _ => 0) gC8 Mode.Playing _ (by decide) (by decide)
    (by decide) (by decide) (by decide)

theorem gen_board_length (draws : Nat → Nat) (d w h : Nat) :
    (gen_board draws d w h).length = w * h := by
  unfold gen_board
  rw [List.length_map, List.length_range]

theorem gen_board_hidden (draws : Nat → Nat) (d w h : Nat) :
    ∀ c ∈ gen_board draws d w h, c.state = CellState.Hidden := by
  intro c hc
  unfold gen_board at hc
  obtain ⟨i, _, rfl⟩ := List.mem_map.mp hc
  rfl

/-- C2 amended: the r key regenerates a fresh fully Hidden board of the same
    configured width, height and difficulty, but the cursor position and the
    start time are NOT reset; from Playing or from the Lost modal the
    session returns to Playing unless the fresh board immediately satisfies
    the win predicate, and from the Won modal it returns to Playing
    unconditionally. -/
theorem claim_C2_restart (draws : Nat → Nat) (g : Game) :
    (regen draws g).width = g.width ∧
    (regen draws g).height = g.height ∧
    (regen draws g).difficulty = g.difficulty ∧
    (regen draws g).cursor = g.cursor ∧
    (regen draws g).startTime = g.startTime ∧
    (regen draws g).cells.length = g.width * g.height ∧
    (∀ c ∈ (regen draws g).cells, c.state = CellState.Hidden) ∧
    step draws g Mode.Playing (Key.Char 'r')
      = (regen draws g, if did_win (regen draws g) then Mode.Won else Mode.Playing) ∧
    step draws g Mode.Lost (Key.Char 'r')
      = (regen draws g, if did_win (regen draws g) then Mode.Won else Mode.Playing) ∧
    step draws g Mode.Won (Key.Char 'r') = (regen draws g, Mode.Playing) :=
  ⟨rfl, rfl, rfl, rfl, rfl, gen_board_length draws g.difficulty g.width g.height,
    gen_board_hidden draws g.difficulty g.width g.height, rfl, rfl, rfl⟩


/-- C2 counterexample: pressing r in the Playing state leaves the cursor at
    (1, 0) instead of resetting it to (0, 0), and leaves the start time
    untouched, refuting the claimed cursor and timer reset. -/
theorem claim_C2_counterexample :
    (step (fun _ => 0) gC2 Mode.Playing (Key.Char 'r')).1.cursor = (1, 0) ∧
    ((1, 0) : Nat × Nat) ≠ (0, 0) ∧
    (step (fun _ => 0) gC2 Mode.Playing (Key.Char 'r')).1.startTime = gC2.startTime :=
  ⟨rfl, by decide, rfl⟩

theorem mineless_flagToggle (g : Game) (x y : Nat)
    (hm : ∀ c ∈ g.cells, c.mine = false) :
    ∀ c ∈ (flagToggle g x y).cells, c.mine = false := by
  rw [forall_mem_iff_getD dflt (fun c => c.mine = false)] at hm ⊢
  intro i hi
  have hlen := flagToggle_cells_length g x y
  have hmine : ((flagToggle g x y).cells.getD i dflt).mine = (g.cells.getD i dflt).mine := by
    unfold flagToggle
    cases (getCell g x y).state
    · exact cells_set_getD_mine g x y _ i
    · rfl
    · exact cells_set_getD_mine g x y _ i
  rw [hmine]
  exact hm i (by omega)

theorem mineAt_of_mineless (g : Game) (p : Nat × Nat)
    (hm : ∀ c ∈ g.cells, c.mine = false) : mineAt g p = false := by
  unfold mineAt getCell
  by_cases h : positionIndex g p.1 p.2 < g.cells.length
  · exact hm _ (getD_mem _ _ _ h)
  · rw [List.getD_eq_default]
    · rfl
    · omega

/-- C10: in the Playing state the win predicate is evaluated after every
    processed key except quit (and except a reveal that hits a mine, which
    parks the session in the Lost modal first); hence on a board generated
    with zero mines, the first key event that is not q and not an r whose
    regenerated board contains a mine sends the session to Won, before any
    cell was revealed or flagged. -/
theorem claim_C10_win_check (draws : Nat → Nat) (g : Game) (k : Key)
    (hcx : g.cursor.1 < g.width) (hcy : g.cursor.2 < g.height) :
    ((∀ c ∈ g.cells, c.mine = false) → k ≠ Key.Char 'q' →
      (k = Key.Char 'r' →
        ∀ c ∈ gen_board draws g.difficulty g.width g.height, c.mine = false) →
      (step draws g Mode.Playing k).2 = Mode.Won) ∧
    (k ≠ Key.Char 'q' →
      ¬ (k = Key.Char ' ' ∧ stateAt g g.cursor = CellState.Hidden ∧
          mineAt g g.cursor = true) →
      (step draws g Mode.Playing k).2
        = (if did_win (step draws g Mode.Playing k).1 then Mode.Won else Mode.Playing)) := by
  have hchk : k ≠ Key.Char 'q' →
      ¬ (k = Key.Char ' ' ∧ stateAt g g.cursor = CellState.Hidden ∧
          mineAt g g.cursor = true) →
      (step draws g Mode.Playing k).2
        = (if did_win (step draws g Mode.Playing k).1 then Mode.Won else Mode.Playing) := by
    intro hq hnm
    cases k with
    | Left => rfl
    | Right => rfl
    | Up => rfl
    | Down => rfl
    | Other => rfl
    | Char c =>
      simp only [step]
      split
      case isTrue h1 =>
        split
        case isTrue h2 =>
          split
          case isTrue h3 =>
            exfalso
            have hmine : mineAt g g.cursor = true := by
              by_contra hf
              rw [Bool.not_eq_true] at hf
              have hnl := reveal_noLost g g.cursor.1 g.cursor.2 (Or.inl hf)
              rw [hnl] at h3
              exact absurd h3 (by simp)
            exact hnm ⟨by rw [h1], h2, hmine⟩
          case isFalse h3 => rfl
        case isFalse h2 => rfl
      case isFalse h1 =>
        split
        case isTrue h2 => rfl
        case isFalse h2 =>
          split
          case isTrue h3 => rfl
          case isFalse h3 =>
            split
            case isTrue h4 => rfl
            case isFalse h4 =>
              split
              case isTrue h5 => exact absurd (by rw [h5]) hq
              case isFalse h5 => rfl
  refine ⟨?_, hchk⟩
  intro hml hq hr
  have hml2 : ∀ c2 ∈ (step draws g Mode.Playing k).1.cells, c2.mine = false := by
    cases k with
    | Left => exact hml
    | Right => exact hml
    | Up => exact hml
    | Down => exact hml
    | Other => exact hml
    | Char c =>
      intro c2 hc2
      simp only [step] at hc2
      split at hc2
      case isTrue h1 =>
        split at hc2
        case isTrue h2 =>
          split at hc2
          case isTrue h3 =>
            exact mineless_of_StepOk (reveal_StepOk g g.cursor.1 g.cursor.2) hml c2 hc2
          case isFalse h3 =>
            exact mineless_of_StepOk (reveal_StepOk g g.cursor.1 g.cursor.2) hml c2 hc2
        case isFalse h2 => exact hml c2 hc2
      case isFalse h1 =>
        split at hc2
        case isTrue h2 => exact mineless_flagToggle g g.cursor.1 g.cursor.2 hml c2 hc2
        case isFalse h2 =>
          split at hc2
          case isTrue h3 => exact mineless_flagToggle g g.cursor.1 g.cursor.2 hml c2 hc2
          case isFalse h3 =>
            split at hc2
            case isTrue h4 => exact hr (by rw [h4]) c2 hc2
            case isFalse h4 =>
              split at hc2
              case isTrue h5 => exact hml c2 hc2
              case isFalse h5 => exact hml c2 hc2
  have hnm : ¬ (k = Key.Char ' ' ∧ stateAt g g.cursor = CellState.Hidden ∧
      mineAt g g.cursor = true) := by
    rintro ⟨_, _, hmine⟩
    rw [mineAt_of_mineless g g.cursor hml] at hmine
    exact absurd hmine (by simp)
  rw [hchk hq hnm, if_pos (did_win_of_mineless _ hml2)]


theorem claim_C10_witness :
    (step (fun _ => 9) gC10 Mode.Playing Key.Left).2 = Mode.Won :=
  (claim_C10_win_check (fun _ => 9) gC10 Key.Left (by decide) (by decide)).1
    (by decide) (by decide) (fun h => by simp at h)

theorem stateAt_allHidden (g : Game) (h : ∀ c ∈ g.cells, c.state = CellState.Hidden)
    (q : Nat × Nat) : stateAt g q = CellState.Hidden := by
  unfold stateAt getCell
  by_cases hidx : positionIndex g q.1 q.2 < g.cells.length
  · exact h _ (getD_mem _ _ _ hidx)
  · rw [List.getD_eq_default]
    · rfl
    · omega

/-- C1 amended: revealing a Hidden mine free cell never signals a loss and
    preserves every mine flag. When its surrounding mine count is zero and,
    additionally, every cell of the reveal set (the 8-connected zero region
    of the target plus the bordering numbered cells) is Hidden, then exactly
    the reveal set becomes Revealed: all its cells are mine free, every
    in-bounds cell outside it keeps its state, and in particular every mine
    cell is untouched. When the surrounding mine count is positive, only the
    target cell becomes Revealed and no neighbor is cascaded into. -/
theorem claim_C1_reveal_region (g : Game) (s : Nat × Nat) (hwf : wf g)
    (hin : inBoundsP g s) (hsH : stateAt g s = CellState.Hidden)
    (hsm : mineAt g s = false) :
    (reveal g s.1 s.2).2 = false ∧
    (∀ q : Nat × Nat, mineAt (reveal g s.1 s.2).1 q = mineAt g q) ∧
    (surroundingMines g s.1 s.2 = 0 →
      (∀ q, InRevealSet g s q → stateAt g q = CellState.Hidden) →
      (∀ q, InRevealSet g s q → mineAt g q = false) ∧
      (∀ q, InRevealSet g s q → stateAt (reveal g s.1 s.2).1 q = CellState.Revealed) ∧
      (∀ q, inBoundsP g q → ¬ InRevealSet g s q →
        stateAt (reveal g s.1 s.2).1 q = stateAt g q) ∧
      (∀ q, inBoundsP g q → mineAt g q = true →
        stateAt (reveal g s.1 s.2).1 q = stateAt g q)) ∧
    (0 < surroundingMines g s.1 s.2 →
      reveal g s.1 s.2 = (setCellState g s.1 s.2 CellState.Revealed, false) ∧
      stateAt (reveal g s.1 s.2).1 s = CellState.Revealed ∧
      (∀ q, inBoundsP g q → q ≠ s → stateAt (reveal g s.1 s.2).1 q = stateAt g q)) := by
  refine ⟨reveal_noLost g s.1 s.2 (Or.inl hsm),
    fun q => StepOk_mineAt (reveal_StepOk g s.1 s.2) q, ?_, ?_⟩
  · intro hz hH
    have hzs : isZero g s := ⟨hin, hsm, hz⟩
    have houtside : ∀ q, inBoundsP g q → ¬ InRevealSet g s q →
        stateAt (reveal g s.1 s.2).1 q = stateAt g q := by
      intro q hqin hqout
      exact revealF_outside g s (hiddenCount g + 1) g s (StepOk_refl g)
        (Or.inl (ZReach.base hzs)) q hqin hqout
    refine ⟨fun q hq => InRevealSet_not_mine hq,
      reveal_region_revealed g s hwf hzs hH, houtside, ?_⟩
    intro q hqin hqm
    apply houtside q hqin
    intro hq
    rw [InRevealSet_not_mine hq] at hqm
    exact absurd hqm (by simp)
  · intro h3
    have heq : reveal g s.1 s.2 = (setCellState g s.1 s.2 CellState.Revealed, false) :=
      reveal_nonzero g s.1 s.2 hsH hsm h3
    refine ⟨heq, ?_, ?_⟩
    · rw [heq]
      exact stateAt_set_self g s.1 s.2 _ hwf hin.1 hin.2
    · intro q hqin hqs
      rw [heq]
      apply stateAt_set_other g s.1 s.2 _ q hin.1 hqin.1
      intro hcon
      exact hqs (by rw [hcon])


/-- C1 counterexample: on a mineless 1 x 3 board whose middle cell is
    Flagged, the cell (0, 2) lies in the 8-connected zero region of the
    Hidden zero count target (0, 0), yet revealing (0, 0) leaves (0, 2)
    Hidden: the cascade stops at the Flagged cell, so the claim that the
    whole region is revealed on every board is false. -/
theorem claim_C1_counterexample :
    stateAt gC1 (0, 0) = CellState.Hidden ∧
    mineAt gC1 (0, 0) = false ∧
    surroundingMines gC1 0 0 = 0 ∧
    ZReach gC1 (0, 0) (0, 2) ∧
    stateAt (reveal gC1 0 0).1 (0, 2) = CellState.Hidden := by
  refine ⟨by decide, by decide, by decide, ?_, by decide⟩
  have h1 : ZReach gC1 (0, 0) (0, 1) :=
    ZReach.step (0, 0) (0, 1) (ZReach.base (by decide)) (by decide) (by decide)
  exact ZReach.step (0, 1) (0, 2) h1 (by decide) (by decide)


theorem claim_C1_witness :
    (reveal gC1w 0 0).2 = false ∧
    stateAt (reveal gC1w 0 0).1 (1, 0) = CellState.Revealed := by
  have h := claim_C1_reveal_region gC1w (0, 0) (by decide) (by decide) (by decide)
    (by decide)
  refine ⟨h.1, ?_⟩
  have hz := h.2.2.1 (by decide) (fun q _ => stateAt_allHidden gC1w (by decide) q)
  exact hz.2.1 (1, 0) (Or.inr ⟨(0, 0), ZReach.base (by decide), by decide⟩)

theorem claim_C2_witness :
    (step (fun _ => 0) gC2 Mode.Won (Key.Char 'r')).2 = Mode.Playing ∧
    (regen (fun _ => 0) gC2).cursor = gC2.cursor ∧
    (regen (fun _ => 0) gC2).startTime = gC2.startTime := by
  have h := claim_C2_restart (fun _ => 0) gC2
  refine ⟨?_, h.2.2.2.1, h.2.2.2.2.1⟩
  rw [h.2.2.2.2.2.2.2.2.2]
